import Mathlib

/-!
Verification of the `rust-theme-test` repository.

The development shallowly embeds the repository's Rust sources:
`src/color_scale.rs`, `src/main.rs`, `src/theme.rs`, `src/ui_color.rs`.
Rust `f32` arithmetic is modelled exactly over `ℚ`; machine integers
(`u16`, `u8`) are modelled as `ℕ` with explicit range conditions; fallible
Rust code (`Result`, serde deserializers) is modelled with `Except`/`Option`;
a Rust `panic!` is modelled by an explicit `panicked` outcome.

The crate's `color` module (struct `Rgba`, the `Hsla ↔ Rgba` conversions,
`Rgba::try_from(&str)` and the serde instances of `Hsla`) is referenced by
`main.rs`/`theme.rs` but its file is not part of the sources; those
definitions are modelled from the spec and marked as such in doc comments.
-/

-- ====================================================================
-- DEFINITIONS
-- ====================================================================

-- ====================================================================
-- Color model: `Hsla` and the clamping constructor `hsla`
-- (src/src/color_scale.rs, lines 7-23; the crate `color` module used by
-- main.rs and theme.rs exposes the same struct and constructor)
-- ====================================================================

/-- The HSLA color struct of `color_scale.rs`: four `f32` channels,
modelled as exact rationals. -/
structure Hsla where
  h : ℚ
  s : ℚ
  l : ℚ
  a : ℚ
deriving DecidableEq

/-- Rust `f32::clamp(lo, hi)`: `lo` if the value is below `lo`, `hi` if it is
above `hi`, the value itself otherwise. -/
def clampQ (x lo hi : ℚ) : ℚ :=
  if x < lo then lo else if x > hi then hi else x

/-- `pub fn hsla(h, s, l, a)` of `color_scale.rs`: clamps every channel
into `[0, 1]`. -/
def hsla (h s l a : ℚ) : Hsla :=
  { h := clampQ h 0 1
    s := clampQ s 0 1
    l := clampQ l 0 1
    a := clampQ a 0 1 }

-- ====================================================================
-- Character/string ordering helpers.  Rust compares `String` by bytes;
-- UTF-8 byte order coincides with code-point order, which is what
-- `charsLe` computes on the decoded character list.
-- ====================================================================

/-- Lexicographic (non-strict) order on character lists by code point. -/
def charsLe : List Char → List Char → Bool
  | [], _ => true
  | _ :: _, [] => false
  | a :: as, b :: bs => a.toNat < b.toNat || (a.toNat == b.toNat && charsLe as bs)

/-- Strict lexicographic order on strings, derived from `charsLe`. -/
def strLt (s t : String) : Bool := !(charsLe t.data s.data)

/-- Does `needle` occur at the head of `hay`? -/
def startsWithCh : List Char → List Char → Bool
  | [], _ => true
  | _ :: _, [] => false
  | a :: as, b :: bs => a == b && startsWithCh as bs

/-- Does `needle` occur contiguously anywhere inside `hay`? -/
def containsCh (needle : List Char) : List Char → Bool
  | [] => startsWithCh needle []
  | b :: rest => startsWithCh needle (b :: rest) || containsCh needle rest

-- ====================================================================
-- main.rs: ColorType, ThemeColor, Appearance, Theme, ThemeFamily,
-- ThemeRegistry (src/src/main.rs)
-- ====================================================================

namespace MainRs

/-- `ColorType` (main.rs lines 27-32). -/
inductive ColorType
  | fg
  | bg
  | border
deriving DecidableEq

/-- `ColorType::name` (main.rs lines 34-42). -/
def ColorType.name : ColorType → String
  | .fg => "fg"
  | .bg => "bg"
  | .border => "border"

/-- Outcome of a Rust computation that can `panic!`: either a value or an
aborted process carrying the panic message. -/
inductive PanicOr (α : Type)
  | ok (a : α)
  | panicked (msg : String)
deriving DecidableEq

/-- `impl From<String> for ColorType` (main.rs lines 44-53): matches the
three known names and `panic!("Unknown color type: {}", s)` otherwise. -/
def ColorType.fromString (s : String) : PanicOr ColorType :=
  if s = "fg" then .ok .fg
  else if s = "bg" then .ok .bg
  else if s = "border" then .ok .border
  else .panicked ("Unknown color type: " ++ s)

/-- `ThemeColor` (main.rs lines 85-90). -/
structure ThemeColor where
  value : Hsla
  name : String
  documentation : Option String
deriving DecidableEq

/-- `Appearance` of main.rs (lines 161-165). -/
inductive Appearance
  | light
  | dark
deriving DecidableEq

/-- `Theme` (main.rs lines 176-180). -/
structure Theme where
  name : String
  appearance : Appearance
  colors : List ThemeColor
deriving DecidableEq

/-- `ThemeFamily` (main.rs lines 229-233). -/
structure ThemeFamily where
  name : String
  author : String
  variants : List Theme
deriving DecidableEq

/-- `ThemeRegistry` (main.rs lines 274-276). -/
structure ThemeRegistry where
  families : List ThemeFamily
deriving DecidableEq

/-- The comparison used by all three registry queries:
`|a, b| a.name.cmp(&b.name)` (non-strict form). -/
def nameLe (a b : Theme) : Prop := charsLe a.name.data b.name.data = true

instance : DecidableRel nameLe := fun a b => instDecidableEqBool _ _

/-- The nested `for` loops of `all_themes` (main.rs lines 292-296): every
variant of every family, in insertion order. -/
def allVariants (r : ThemeRegistry) : List Theme :=
  (r.families.map ThemeFamily.variants).join

/-- `ThemeRegistry::all_themes` (main.rs lines 289-301): collect all variants,
then `sort_by` variant name.  Rust's `sort_by` is a stable sort; any two
stable sorts by the same total preorder agree, so it is modelled by
insertion sort. -/
def ThemeRegistry.all_themes (r : ThemeRegistry) : List Theme :=
  List.insertionSort nameLe (allVariants r)

/-- `ThemeRegistry::all_dark` (main.rs lines 303-317): collect the variants
whose appearance is `Dark`, then `sort_by` variant name. -/
def ThemeRegistry.all_dark (r : ThemeRegistry) : List Theme :=
  List.insertionSort nameLe ((allVariants r).filter (fun t => t.appearance == .dark))

/-- `ThemeRegistry::all_light` (main.rs lines 319-333): collect the variants
whose appearance is `Light`, then `sort_by` variant name. -/
def ThemeRegistry.all_light (r : ThemeRegistry) : List Theme :=
  List.insertionSort nameLe ((allVariants r).filter (fun t => t.appearance == .light))

/-- Example variant A (Dark) of the C6 example. -/
def exA : Theme := { name := "A", appearance := .dark, colors := [] }

/-- Example variant B (Light) of the C6 example. -/
def exB : Theme := { name := "B", appearance := .light, colors := [] }

/-- Example variant C (Dark) of the C6 example. -/
def exC : Theme := { name := "C", appearance := .dark, colors := [] }

/-- Example registry of the C6 example; the variants are inserted in the
order C, A, B so that the name sorting is visible in the result. -/
def exReg : ThemeRegistry :=
  { families := [{ name := "F", author := "Au", variants := [exC, exA, exB] }] }

end MainRs

-- ====================================================================
-- ui_color.rs: UIColor and UIColors (src/src/ui_color.rs)
-- ====================================================================

namespace UiColorRs

/-- `ColorScale` as referenced by ui_color.rs: `[Hsla; 12]`, a fixed
length-12 array of colors, modelled as a list. -/
def ColorScale := List Hsla

instance : DecidableEq ColorScale := inferInstanceAs (DecidableEq (List Hsla))

/-- `UIColor` (ui_color.rs lines 7-11). -/
structure UIColor where
  name : String
  value : ColorScale
  description : String
deriving DecidableEq

/-- `UIColors` (ui_color.rs line 27): a `BTreeMap<String, UIColor>`, modelled
as an association list kept sorted by strictly increasing key. -/
structure UIColors where
  entries : List (String × UIColor)
deriving DecidableEq

/-- `BTreeMap::insert`: place the key in order, replacing an equal key. -/
def insertEntry (k : String) (v : UIColor) :
    List (String × UIColor) → List (String × UIColor)
  | [] => [(k, v)]
  | (k0, v0) :: rest =>
    if strLt k k0 = true then (k, v) :: (k0, v0) :: rest
    else if k = k0 then (k, v) :: rest
    else (k0, v0) :: insertEntry k v rest

/-- `UIColors::new` (ui_color.rs lines 31-33). -/
def UIColors.new : UIColors := ⟨[]⟩

/-- `UIColors::add` (ui_color.rs lines 36-38):
`self.0.insert(color.name.clone(), color)`. -/
def UIColors.add (m : UIColors) (c : UIColor) : UIColors :=
  ⟨insertEntry c.name c m.entries⟩

/-- `UIColors::get` (ui_color.rs lines 41-43): `self.0.get(name)`. -/
def UIColors.get (m : UIColors) (k : String) : Option UIColor :=
  (m.entries.find? (fun p => p.1 == k)).map (fun p => p.2)

/-- The `BTreeMap` representation invariant: keys strictly increasing. -/
def WFMap (m : UIColors) : Prop :=
  m.entries.Pairwise (fun p q => strLt p.1 q.1 = true)

end UiColorRs

-- ====================================================================
-- theme.rs: hsla_to_zed_hsla, StandardHsla, ZedHsla (src/src/theme.rs)
-- ====================================================================

namespace ThemeRs

/-- `hsla_to_zed_hsla` of theme.rs (lines 11-18): the input string
`"h,s,l,a"` is split on commas and each piece parsed as `f32`; the function
is taken here on the four already-parsed components.  It divides `h` by 360
and `s`, `l`, `a` by 100 and feeds the results to the clamping constructor
`hsla`. -/
def hsla_to_zed_hsla (h s l a : ℚ) : Hsla :=
  hsla (h / 360) (s / 100) (l / 100) (a / 100)

/-- `StandardHsla` (theme.rs lines 84-85): a `[u16; 4]` wrapper. -/
structure StandardHsla where
  h : ℕ
  s : ℕ
  l : ℕ
  a : ℕ
deriving DecidableEq

/-- The custom `Deserialize` impl of `StandardHsla` (theme.rs lines 87-109),
taken after `<[u16; 4]>::deserialize` has produced the four `u16` elements:
each channel is checked against its declared bound and the first violation
fails the parse with a field-naming message. -/
def StandardHsla.deserialize (h s l a : ℕ) : Except String StandardHsla :=
  if h > 360 then .error "H is out of bounds"
  else if s > 100 then .error "S is out of bounds"
  else if l > 100 then .error "L is out of bounds"
  else if a > 100 then .error "A is out of bounds"
  else .ok ⟨h, s, l, a⟩

/-- A numeric scalar of a parsed document: TOML distinguishes integer
literals from float literals. -/
inductive TomlNum
  | int (n : ℤ)
  | float (q : ℚ)
deriving DecidableEq

/-- `<[u16; 4]>::deserialize` on a list of document numbers: exactly four
elements, each an integer literal fitting in `u16`; anything else is a type
or range error of the element deserializer. -/
def u16ArrayDeser (xs : List TomlNum) : Except String (ℕ × ℕ × ℕ × ℕ) :=
  match xs with
  | [.int h, .int s, .int l, .int a] =>
    if h0 : 0 ≤ h ∧ h < 65536 ∧ 0 ≤ s ∧ s < 65536 ∧ 0 ≤ l ∧ l < 65536 ∧ 0 ≤ a ∧ a < 65536 then
      .ok (h.toNat, s.toNat, l.toNat, a.toNat)
    else .error "invalid value: integer out of range for u16"
  | _ => .error "invalid type: expected an array of 4 u16 values"

/-- `StandardHsla` deserialization from a document value (element
deserialization followed by the bounds checks of theme.rs lines 92-107). -/
def StandardHsla.deserializeNums (xs : List TomlNum) : Except String StandardHsla :=
  (u16ArrayDeser xs).bind fun t => StandardHsla.deserialize t.1 t.2.1 t.2.2.1 t.2.2.2

/-- Modelled from the spec: the serde `Deserialize` impl of `color::Hsla`
(crate `color` module, not among the sources).  Per spec §4.4 (normalized
encoding) and §6 it accepts a 4-element float array and clamps each channel
through the constructor `hsla`; integer literals are not accepted, as spec
§8/§9 require the all-integer tuple `[361,0,0,0]` to fail the whole parse
rather than fall back to the float decode. -/
def hslaDeserializeNums (xs : List TomlNum) : Except String Hsla :=
  match xs with
  | [.float h, .float s, .float l, .float a] => .ok (hsla h s l a)
  | _ => .error "invalid type: expected an array of 4 floats"

/-- `ZedHsla` (theme.rs lines 111-116): untagged choice between the
standard-encoded and the normalized-encoded color. -/
inductive ZedHsla
  | standardHsla (v : StandardHsla)
  | hsla (c : Hsla)
deriving DecidableEq

/-- The serde-derived untagged `Deserialize` of `ZedHsla` (theme.rs lines
111-116): the variants are tried in declaration order and the first success
wins. -/
def ZedHsla.deserializeNums (xs : List TomlNum) : Except String ZedHsla :=
  match StandardHsla.deserializeNums xs with
  | .ok v => .ok (.standardHsla v)
  | .error _ =>
    match hslaDeserializeNums xs with
    | .ok c => .ok (.hsla c)
    | .error _ => .error "data did not match any variant of untagged enum ZedHsla"

end ThemeRs

-- ====================================================================
-- theme.rs: ThemeVariant and its TOML serialization (src/src/theme.rs,
-- lines 119-168).  The toml crate itself is external; its pretty
-- serializer and parser are modelled on exactly the document shape the
-- serde derives of ThemeVariant produce: the three scalar fields in
-- declaration order (`id` is `#[serde(skip)]`), a blank line, the
-- `[overrides]` table header, and one `key = [...]` line per override in
-- BTreeMap key order.
-- ====================================================================

namespace ThemeRs

/-- `UiColorName` (theme.rs lines 119-141, generated by
`create_ui_color_overrides!(background, border, text)`). -/
inductive UiColorName
  | background
  | border
  | text
deriving DecidableEq

/-- Declaration index of a token name: the derived `Ord` of the enum. -/
def UiColorName.idx : UiColorName → ℕ
  | .background => 0
  | .border => 1
  | .text => 2

/-- The serialized `key = ` form of a token name (serde `rename_all`
makes the keys snake_case). -/
def UiColorName.keyEq : UiColorName → List Char
  | .background => "background = ".data
  | .border => "border = ".data
  | .text => "text = ".data

/-- `Appearance` of theme.rs (lines 147-152). -/
inductive Appearance
  | light
  | dark
deriving DecidableEq

/-- The serialized snake_case word of an appearance. -/
def Appearance.key : Appearance → List Char
  | .light => "light".data
  | .dark => "dark".data

/-- `ThemeVariant` (theme.rs lines 156-164); `overrides` is
`ColorOverrides(BTreeMap<UiColorName, ZedHsla>)`, modelled as an
association list sorted by strictly increasing token index; `id` carries
`#[serde(skip)]`. -/
structure ThemeVariant where
  id : ℕ
  name : String
  author : String
  appearance : Appearance
  overrides : List (UiColorName × ZedHsla)
deriving DecidableEq

/-- TOML basic-string escaping of one character. -/
def escChar (ch : Char) : List Char :=
  if ch = '"' ∨ ch = '\\' then ['\\', ch]
  else if ch = '\n' then ['\\', 'n']
  else if ch = '\t' then ['\\', 't']
  else if ch = '\r' then ['\\', 'r']
  else [ch]

/-- TOML basic-string escaping of a character list. -/
def escStr : List Char → List Char
  | [] => []
  | ch :: rest => escChar ch ++ escStr rest

/-- Decimal digit character of a value below 10. -/
def digitChar10 (k : ℕ) : Char :=
  match k with
  | 0 => '0' | 1 => '1' | 2 => '2' | 3 => '3' | 4 => '4'
  | 5 => '5' | 6 => '6' | 7 => '7' | 8 => '8' | _ => '9'

/-- Big-endian decimal digits, fuelled so that it computes by reduction. -/
def natCharsAux : ℕ → ℕ → List Char
  | 0, _ => []
  | fuel + 1, n =>
    if n < 10 then [digitChar10 n]
    else natCharsAux fuel (n / 10) ++ [digitChar10 (n % 10)]

/-- Big-endian decimal digits of a natural number. -/
def natChars (n : ℕ) : List Char := natCharsAux (n + 1) n

/-- Decimal scale of a rational: the least `k ≤ 200` with `den ∣ 10^k`
(every `f32` value is a dyadic rational with at most 149 fractional
digits, so the bound is never reached on real values). -/
def decScale (q : ℚ) : Option ℕ :=
  (List.range 201).find? (fun k => 10 ^ k % q.den == 0)

/-- Pad a digit list with leading zeros to width `w`. -/
def padZeros (w : ℕ) (ds : List Char) : List Char :=
  List.replicate (w - ds.length) '0' ++ ds

/-- Exact decimal rendering of a nonnegative float value; integral values
get a trailing `.0` as the toml serializer emits. -/
def ratDecChars (q : ℚ) : Option (List Char) :=
  (decScale q).map (fun k =>
    let mag := q.num.natAbs * (10 ^ k / q.den)
    if k = 0 then natChars mag ++ ['.', '0']
    else natChars (mag / 10 ^ k) ++ '.' :: padZeros k (natChars (mag % 10 ^ k)))

/-- Rendering of one override value: a standard tuple as a 4-integer
array, a normalized color as a 4-float array. -/
def renderZed : ZedHsla → Option (List Char)
  | .standardHsla v =>
    some ('[' :: natChars v.h ++ ", ".data ++ natChars v.s ++ ", ".data ++
      natChars v.l ++ ", ".data ++ natChars v.a ++ [']'])
  | .hsla c =>
    (ratDecChars c.h).bind fun dh =>
    (ratDecChars c.s).bind fun ds =>
    (ratDecChars c.l).bind fun dl =>
    (ratDecChars c.a).bind fun da =>
    some ('[' :: dh ++ ", ".data ++ ds ++ ", ".data ++ dl ++ ", ".data ++ da ++ [']'])

/-- One serialized override line. -/
def renderEntry (p : UiColorName × ZedHsla) : Option (List Char) :=
  match renderZed p.2 with
  | none => none
  | some v => some (p.1.keyEq ++ v ++ ['\n'])

/-- The serialized override lines, in map order. -/
def renderEntries : List (UiColorName × ZedHsla) → Option (List Char)
  | [] => some []
  | p :: rest =>
    match renderEntry p, renderEntries rest with
    | some l, some ls => some (l ++ ls)
    | _, _ => none

/-- `serialize_theme` (theme.rs lines 166-168): `toml::to_string_pretty`
on the serde-derived document of the variant, modelled for the shape
described at the head of this section. -/
def serialize_theme (t : ThemeVariant) : Option String :=
  match renderEntries t.overrides with
  | none => none
  | some entries =>
    some (String.mk ("name = \"".data ++ escStr t.name.data ++
      '"' :: "\nauthor = \"".data ++ escStr t.author.data ++
      '"' :: "\nappearance = \"".data ++ t.appearance.key ++
      "\"\n\n[overrides]\n".data ++ entries))

/-- Strip an expected literal from the head of the input. -/
def matchLit : List Char → List Char → Option (List Char)
  | [], rest => some rest
  | _ :: _, [] => none
  | e :: es, ch :: rest => if ch = e then matchLit es rest else none

/-- Worker of `parseStr`; the flag records a pending backslash. -/
def parseStrAux : Bool → List Char → Option (List Char × List Char)
  | _, [] => none
  | true, e :: rest =>
    match parseStrAux false rest with
    | none => none
    | some (sdata, rem) =>
      if e = 'n' then some ('\n' :: sdata, rem)
      else if e = 't' then some ('\t' :: sdata, rem)
      else if e = 'r' then some ('\r' :: sdata, rem)
      else if e = '"' ∨ e = '\\' then some (e :: sdata, rem)
      else none
  | false, ch :: rest =>
    if ch = '"' then some ([], rest)
    else if ch = '\\' then parseStrAux true rest
    else
      match parseStrAux false rest with
      | none => none
      | some (sdata, rem) => some (ch :: sdata, rem)

/-- Parse a TOML basic-string body up to the closing quote, undoing the
escapes `escChar` produces. -/
def parseStr (cs : List Char) : Option (List Char × List Char) := parseStrAux false cs

/-- Numeric value of a digit list. -/
def parseNatChars (ds : List Char) : ℕ :=
  ds.foldl (fun acc ch => 10 * acc + (ch.toNat - '0'.toNat)) 0

/-- Parse a nonnegative number token: an integer literal yields
`TomlNum.int`, a float literal (with a fractional part) `TomlNum.float`. -/
def parseNum (cs : List Char) : Option (TomlNum × List Char) :=
  let ip := cs.takeWhile Char.isDigit
  let cs2 := cs.dropWhile Char.isDigit
  if ip.isEmpty then none
  else if cs2.head? = some '.' then
    let cs3 := cs2.tail
    let fp := cs3.takeWhile Char.isDigit
    let cs4 := cs3.dropWhile Char.isDigit
    if fp.isEmpty then none
    else some (.float ((parseNatChars ip : ℚ) + (parseNatChars fp : ℚ) / 10 ^ fp.length), cs4)
  else some (.int (parseNatChars ip : ℤ), cs2)

/-- Parse a 4-element `[a, b, c, d]` array of number tokens. -/
def parseArray4 (cs : List Char) : Option (List TomlNum × List Char) :=
  (matchLit "[".data cs).bind fun cs1 =>
  (parseNum cs1).bind fun p1 =>
  (matchLit ", ".data p1.2).bind fun cs3 =>
  (parseNum cs3).bind fun p2 =>
  (matchLit ", ".data p2.2).bind fun cs5 =>
  (parseNum cs5).bind fun p3 =>
  (matchLit ", ".data p3.2).bind fun cs7 =>
  (parseNum cs7).bind fun p4 =>
  (matchLit "]".data p4.2).bind fun cs9 =>
  some ([p1.1, p2.1, p3.1, p4.1], cs9)

/-- Parse one override key, in declaration order of the enum. -/
def parseKeyName (cs : List Char) : Option (UiColorName × List Char) :=
  match matchLit "background = ".data cs with
  | some rest => some (.background, rest)
  | none =>
    match matchLit "border = ".data cs with
    | some rest => some (.border, rest)
    | none =>
      match matchLit "text = ".data cs with
      | some rest => some (.text, rest)
      | none => none

/-- Parse one `key = [...]` override line, decoding the value through the
untagged `ZedHsla` deserializer. -/
def parseEntry (cs : List Char) : Option ((UiColorName × ZedHsla) × List Char) :=
  (parseKeyName cs).bind fun pk =>
  (parseArray4 pk.2).bind fun pa =>
  match ZedHsla.deserializeNums pa.1 with
  | .error _ => none
  | .ok v => (matchLit "\n".data pa.2).bind fun cs3 => some ((pk.1, v), cs3)

/-- `BTreeMap::insert` keyed by the token order. -/
def insertOverride (k : UiColorName) (v : ZedHsla) :
    List (UiColorName × ZedHsla) → List (UiColorName × ZedHsla)
  | [] => [(k, v)]
  | (k0, v0) :: rest =>
    if k.idx < k0.idx then (k, v) :: (k0, v0) :: rest
    else if k = k0 then (k, v) :: rest
    else (k0, v0) :: insertOverride k v rest

/-- Parse the override lines into a `BTreeMap`.  A strictly ordered map
over a three-name key type has at most three entries, so three attempts
followed by end-of-input cover every serializer-produced document. -/
def parseEntries (cs : List Char) : Option (List (UiColorName × ZedHsla)) :=
  match parseEntry cs with
  | none => if cs.isEmpty then some [] else none
  | some (p1, cs1) =>
    match parseEntry cs1 with
    | none => if cs1.isEmpty then some (insertOverride p1.1 p1.2 []) else none
    | some (p2, cs2) =>
      match parseEntry cs2 with
      | none =>
        if cs2.isEmpty then
          some (insertOverride p2.1 p2.2 (insertOverride p1.1 p1.2 []))
        else none
      | some (p3, cs3) =>
        if cs3.isEmpty then
          some (insertOverride p3.1 p3.2
            (insertOverride p2.1 p2.2 (insertOverride p1.1 p1.2 [])))
        else none

/-- Parse the appearance word. -/
def parseAppearance (cs : List Char) : Option (Appearance × List Char) :=
  match matchLit "light".data cs with
  | some rest => some (.light, rest)
  | none =>
    match matchLit "dark".data cs with
    | some rest => some (.dark, rest)
    | none => none

/-- The document parser on the decoded character list. -/
def parseThemeChars (cs : List Char) : Option ThemeVariant :=
  (matchLit "name = \"".data cs).bind fun cs1 =>
  (parseStr cs1).bind fun pn =>
  (matchLit "\nauthor = \"".data pn.2).bind fun cs3 =>
  (parseStr cs3).bind fun pa =>
  (matchLit "\nappearance = \"".data pa.2).bind fun cs5 =>
  (parseAppearance cs5).bind fun pp =>
  (matchLit "\"\n\n[overrides]\n".data pp.2).bind fun cs7 =>
  (parseEntries cs7).bind fun ov =>
  some { id := 0, name := String.mk pn.1, author := String.mk pa.1,
         appearance := pp.1, overrides := ov }

/-- Model of `toml::from_str::<ThemeVariant>`, restricted to the document
shape the serializer emits (the `id` field is `#[serde(skip)]` and comes
back as its default). -/
def parse_theme (s : String) : Option ThemeVariant := parseThemeChars s.data

/-- Data-model validity of one override value: a standard tuple within its
declared domains, or a normalized color with every channel in `[0, 1]`
(the invariants of spec §3). -/
def wfZedB : ZedHsla → Bool
  | .standardHsla v => decide (v.h ≤ 360 ∧ v.s ≤ 100 ∧ v.l ≤ 100 ∧ v.a ≤ 100)
  | .hsla c => decide (0 ≤ c.h ∧ c.h ≤ 1 ∧ 0 ≤ c.s ∧ c.s ≤ 1 ∧
      0 ≤ c.l ∧ c.l ≤ 1 ∧ 0 ≤ c.a ∧ c.a ≤ 1)

/-- Strictly increasing override keys (the `BTreeMap` invariant). -/
def wfKeysB : List (UiColorName × ZedHsla) → Bool
  | [] => true
  | [_] => true
  | p :: q :: rest => decide (p.1.idx < q.1.idx) && wfKeysB (q :: rest)

/-- Data-model invariants of a well-formed `ThemeVariant`: the override
map has strictly increasing keys and every override value is valid. -/
def WFTheme (t : ThemeVariant) : Prop :=
  wfKeysB t.overrides = true ∧ ∀ p ∈ t.overrides, wfZedB p.2 = true

instance (t : ThemeVariant) : Decidable (WFTheme t) := by
  unfold WFTheme
  infer_instance

/-- Concrete variant used as the C3 witness (the rational channel values
are built by explicit constructors so that they compute by reduction). -/
def demoTheme : ThemeVariant :=
  { id := 7, name := "Demo", author := "Ann", appearance := .dark
    overrides := [(.background, .standardHsla ⟨360, 0, 0, 100⟩),
      (.text, .hsla ⟨⟨1, 2, by decide, Nat.coprime_one_left 2⟩,
        ⟨0, 1, by decide, by decide⟩,
        ⟨1, 1, by decide, by decide⟩,
        ⟨1, 1, by decide, by decide⟩⟩)] }

/-- The serialized form of the witness variant. -/
def demoDoc : String := (serialize_theme demoTheme).getD ""

end ThemeRs

-- ====================================================================
-- Hex codec and the Hsla ↔ Rgba conversions (main.rs lines 7-21; the
-- `color` module parts are modelled from the spec)
-- ====================================================================

/-- Modelled from the spec: struct `Rgba` of the crate `color` module (not
among the sources): four `f32` channels, normalized to `[0, 1]`. -/
structure Rgba where
  r : ℚ
  g : ℚ
  b : ℚ
  a : ℚ
deriving DecidableEq

/-- Euclidean remainder by 2 on rationals (`rem_euclid(2.0)`). -/
def qmod2 (x : ℚ) : ℚ := x - 2 * ⌊x / 2⌋

/-- Euclidean remainder by 6 on rationals (`rem_euclid(6.0)`). -/
def qmod6 (x : ℚ) : ℚ := x - 6 * ⌊x / 6⌋

/-- Modelled from the spec: the `From<Rgba> for Hsla` conversion of the
crate `color` module — the standard RGB→HSL formulas (glossary: HSLA is
stored normalized to `[0, 1]` per channel), exact over `ℚ`. -/
def rgbaToHsla (c : Rgba) : Hsla :=
  let vmax := max c.r (max c.g c.b)
  let vmin := min c.r (min c.g c.b)
  let chroma := vmax - vmin
  let lum := (vmax + vmin) / 2
  let hue6 : ℚ :=
    if chroma = 0 then 0
    else if vmax = c.r then qmod6 ((c.g - c.b) / chroma)
    else if vmax = c.g then (c.b - c.r) / chroma + 2
    else (c.r - c.g) / chroma + 4
  let sat : ℚ :=
    if lum = 0 ∨ lum = 1 then 0 else chroma / (1 - |2 * lum - 1|)
  { h := hue6 / 6, s := sat, l := lum, a := c.a }

/-- Modelled from the spec: the `From<Hsla> for Rgba` conversion of the
crate `color` module — the standard HSL→RGB formulas, exact over `ℚ`. -/
def hslaToRgba (c : Hsla) : Rgba :=
  let hue6 := c.h * 6
  let chroma := (1 - |2 * c.l - 1|) * c.s
  let x := chroma * (1 - |qmod2 hue6 - 1|)
  let m := c.l - chroma / 2
  if hue6 < 1 then { r := chroma + m, g := x + m, b := m, a := c.a }
  else if hue6 < 2 then { r := x + m, g := chroma + m, b := m, a := c.a }
  else if hue6 < 3 then { r := m, g := chroma + m, b := x + m, a := c.a }
  else if hue6 < 4 then { r := m, g := x + m, b := chroma + m, a := c.a }
  else if hue6 < 5 then { r := x + m, g := m, b := chroma + m, a := c.a }
  else { r := chroma + m, g := m, b := x + m, a := c.a }

/-- Value of one hexadecimal digit, case-insensitive. -/
def hexVal (ch : Char) : Option ℕ :=
  if '0' ≤ ch ∧ ch ≤ '9' then some (ch.toNat - '0'.toNat)
  else if 'a' ≤ ch ∧ ch ≤ 'f' then some (ch.toNat - 'a'.toNat + 10)
  else if 'A' ≤ ch ∧ ch ≤ 'F' then some (ch.toNat - 'A'.toNat + 10)
  else none

/-- One byte from two hex digits. -/
def hexByte (c1 c2 : Char) : Option ℕ :=
  match hexVal c1, hexVal c2 with
  | some hi, some lo => some (16 * hi + lo)
  | _, _ => none

/-- The body of `Rgba::try_from` on the decoded character list. -/
def rgbaParse : List Char → Except String Rgba
  | '#' :: [r1, r2, g1, g2, b1, b2] =>
    match hexByte r1 r2, hexByte g1 g2, hexByte b1 b2 with
    | some r, some g, some b =>
      .ok { r := (r : ℚ) / 255, g := (g : ℚ) / 255, b := (b : ℚ) / 255, a := 1 }
    | _, _, _ => .error "invalid digit found in string"
  | '#' :: [r1, r2, g1, g2, b1, b2, a1, a2] =>
    match hexByte r1 r2, hexByte g1 g2, hexByte b1 b2, hexByte a1 a2 with
    | some r, some g, some b, some a =>
      .ok { r := (r : ℚ) / 255, g := (g : ℚ) / 255, b := (b : ℚ) / 255, a := (a : ℚ) / 255 }
    | _, _, _, _ => .error "invalid digit found in string"
  | _ => .error "invalid length"

/-- Modelled from the spec: `Rgba::try_from(&str)` of the crate `color`
module, per spec §4.1 — `#RRGGBB` or `#RRGGBBAA`, case-insensitive hex
digits only; wrong length or a non-hex character fails the parse; a missing
alpha pair defaults to fully opaque; each byte is divided by 255. -/
def Rgba.tryFrom (s : String) : Except String Rgba := rgbaParse s.data

/-- `Hsla::from_hex` (main.rs lines 8-11): parse an `Rgba`, convert. -/
def Hsla.from_hex (s : String) : Except String Hsla :=
  match Rgba.tryFrom s with
  | .ok c => .ok (rgbaToHsla c)
  | .error e => .error e

/-- Rust `(x : f32) as u8`: saturating truncation toward zero. -/
def castU8 (q : ℚ) : ℕ := min 255 (Int.toNat ⌊q⌋)

/-- Uppercase hexadecimal digit of a value below 16. -/
def hexDigitU (k : ℕ) : Char :=
  match k with
  | 0 => '0' | 1 => '1' | 2 => '2' | 3 => '3' | 4 => '4'
  | 5 => '5' | 6 => '6' | 7 => '7' | 8 => '8' | 9 => '9'
  | 10 => 'A' | 11 => 'B' | 12 => 'C' | 13 => 'D' | 14 => 'E'
  | _ => 'F'

/-- The two-digit uppercase hex rendering `{:02X}` of a byte. -/
def byteHexChars (n : ℕ) : List Char := [hexDigitU (n / 16), hexDigitU (n % 16)]

/-- `Hsla::to_hex` (main.rs lines 13-20): convert to `Rgba`, multiply each
channel by 255, truncate with `as u8`, render as uppercase hex pairs behind
a leading `#`. -/
def Hsla.to_hex (c : Hsla) : String :=
  let rgba := hslaToRgba c
  String.mk ('#' :: (byteHexChars (castU8 (rgba.r * 255)) ++
    byteHexChars (castU8 (rgba.g * 255)) ++
    byteHexChars (castU8 (rgba.b * 255)) ++
    byteHexChars (castU8 (rgba.a * 255))))

/-- The 8-digit hex literal formed from a byte quadruple. -/
def hexLiteral (r g b a : ℕ) : String :=
  String.mk ('#' :: (byteHexChars r ++ byteHexChars g ++ byteHexChars b ++ byteHexChars a))

-- ====================================================================
-- THEOREMS
-- ====================================================================

-- ====================================================================
-- Basic clamp lemmas
-- ====================================================================

theorem clampQ_nonneg (x : ℚ) : 0 ≤ clampQ x 0 1 := by
  unfold clampQ
  split_ifs with h1 h2
  · exact le_refl 0
  · norm_num
  · exact not_lt.mp h1

theorem clampQ_le_one (x : ℚ) : clampQ x 0 1 ≤ 1 := by
  unfold clampQ
  split_ifs with h1 h2
  · norm_num
  · exact le_refl 1
  · exact not_lt.mp h2

theorem clampQ_eq_self {x : ℚ} (h0 : 0 ≤ x) (h1 : x ≤ 1) : clampQ x 0 1 = x := by
  unfold clampQ
  rw [if_neg (not_lt.mpr h0), if_neg (not_lt.mpr h1)]

-- ====================================================================
-- C4: the `hsla` constructor clamps and never fails
-- ====================================================================

/-- C4: for all rational inputs `h, s, l, a` the constructor `hsla` (a total
function: it never fails) returns a value whose every channel lies in
`[0, 1]`; in particular `hsla 1.5 (-0.5) 0.5 0.5 = hsla 1 0 0.5 0.5`. -/
theorem hsla_clamps :
    (∀ h s l a : ℚ,
      (0 ≤ (hsla h s l a).h ∧ (hsla h s l a).h ≤ 1) ∧
      (0 ≤ (hsla h s l a).s ∧ (hsla h s l a).s ≤ 1) ∧
      (0 ≤ (hsla h s l a).l ∧ (hsla h s l a).l ≤ 1) ∧
      (0 ≤ (hsla h s l a).a ∧ (hsla h s l a).a ≤ 1)) ∧
    hsla (3/2) (-(1/2)) (1/2) (1/2) = hsla 1 0 (1/2) (1/2) := by
  constructor
  · intro h s l a
    exact ⟨⟨clampQ_nonneg h, clampQ_le_one h⟩, ⟨clampQ_nonneg s, clampQ_le_one s⟩,
      ⟨clampQ_nonneg l, clampQ_le_one l⟩, ⟨clampQ_nonneg a, clampQ_le_one a⟩⟩
  · unfold hsla clampQ
    norm_num

-- ====================================================================
-- C8: standard → normalized conversion divides by 360 / 100
-- ====================================================================

/-- C8: for every standard-encoded tuple `[h,s,l,a]` within its domains,
`hsla_to_zed_hsla` divides `h` by 360 and `s`, `l`, `a` by 100 and the
clamp is the identity, so the resulting channels are exactly the quotients;
in particular `[360,100,100,100] ↦ (1,1,1,1)` and `[0,0,0,0] ↦ (0,0,0,0)`. -/
theorem hsla_to_zed_hsla_divides (h s l a : ℚ)
    (hh0 : 0 ≤ h) (hh1 : h ≤ 360) (hs0 : 0 ≤ s) (hs1 : s ≤ 100)
    (hl0 : 0 ≤ l) (hl1 : l ≤ 100) (ha0 : 0 ≤ a) (ha1 : a ≤ 100) :
    ThemeRs.hsla_to_zed_hsla h s l a =
      { h := h / 360, s := s / 100, l := l / 100, a := a / 100 } ∧
    ThemeRs.hsla_to_zed_hsla 360 100 100 100 = { h := 1, s := 1, l := 1, a := 1 } ∧
    ThemeRs.hsla_to_zed_hsla 0 0 0 0 = { h := 0, s := 0, l := 0, a := 0 } := by
  refine ⟨?_, ?_, ?_⟩
  · unfold ThemeRs.hsla_to_zed_hsla hsla
    rw [clampQ_eq_self (by positivity) ((div_le_one (by norm_num)).mpr hh1),
      clampQ_eq_self (by positivity) ((div_le_one (by norm_num)).mpr hs1),
      clampQ_eq_self (by positivity) ((div_le_one (by norm_num)).mpr hl1),
      clampQ_eq_self (by positivity) ((div_le_one (by norm_num)).mpr ha1)]
  · unfold ThemeRs.hsla_to_zed_hsla hsla clampQ
    norm_num
  · unfold ThemeRs.hsla_to_zed_hsla hsla clampQ
    norm_num

/-- Witness for C8 at the concrete input `[360, 100, 100, 100]`. -/
theorem hsla_to_zed_hsla_divides_witness :
    ThemeRs.hsla_to_zed_hsla 360 100 100 100 =
      { h := (360:ℚ) / 360, s := (100:ℚ) / 100, l := (100:ℚ) / 100, a := (100:ℚ) / 100 } :=
  (hsla_to_zed_hsla_divides 360 100 100 100 (by norm_num) (by norm_num) (by norm_num)
    (by norm_num) (by norm_num) (by norm_num) (by norm_num) (by norm_num)).1

-- ====================================================================
-- C1: StandardHsla bounds validation
-- ====================================================================

/-- C1 counterexample: the parse of the out-of-bounds standard tuple
`[361, 0, 0, 0]` fails with the message `"H is out of bounds"`, which
identifies the offending field but does not contain the offending value
`361` — contradicting the claim that the error identifies field AND value. -/
theorem standard_bounds_error_omits_value :
    ThemeRs.StandardHsla.deserialize 361 0 0 0 = .error "H is out of bounds" ∧
    containsCh "361".data "H is out of bounds".data = false := by
  constructor
  · rfl
  · rfl

/-- C1 (amended): a standard-encoded `u16` tuple parses successfully — to
the unchanged tuple, never partially — exactly when every field is within
its domain, and any out-of-domain field fails the parse with an error
naming the offending field (though not its value); `[361,0,0,0]` fails and
`[360,0,0,0]` succeeds. -/
theorem standard_bounds_amended (h s l a : ℕ)
    (hh : h < 65536) (hs : s < 65536) (hl : l < 65536) (ha : a < 65536) :
    (ThemeRs.StandardHsla.deserialize h s l a = .ok ⟨h, s, l, a⟩ ↔
      h ≤ 360 ∧ s ≤ 100 ∧ l ≤ 100 ∧ a ≤ 100) ∧
    (∀ v, ThemeRs.StandardHsla.deserialize h s l a = .ok v → v = ⟨h, s, l, a⟩) ∧
    (h > 360 → ThemeRs.StandardHsla.deserialize h s l a = .error "H is out of bounds") ∧
    (h ≤ 360 → s > 100 →
      ThemeRs.StandardHsla.deserialize h s l a = .error "S is out of bounds") ∧
    (h ≤ 360 → s ≤ 100 → l > 100 →
      ThemeRs.StandardHsla.deserialize h s l a = .error "L is out of bounds") ∧
    (h ≤ 360 → s ≤ 100 → l ≤ 100 → a > 100 →
      ThemeRs.StandardHsla.deserialize h s l a = .error "A is out of bounds") := by
  unfold ThemeRs.StandardHsla.deserialize
  refine ⟨?_, ?_, ?_, ?_, ?_, ?_⟩
  · constructor
    · intro hok
      by_contra hc
      push_neg at hc
      split_ifs at hok <;> omega
    · rintro ⟨b1, b2, b3, b4⟩
      rw [if_neg (by omega), if_neg (by omega), if_neg (by omega), if_neg (by omega)]
  · intro v hv
    split_ifs at hv <;> simp_all
  · intro hb
    rw [if_pos hb]
  · intro hb1 hb2
    rw [if_neg (by omega), if_pos hb2]
  · intro hb1 hb2 hb3
    rw [if_neg (by omega), if_neg (by omega), if_pos hb3]
  · intro hb1 hb2 hb3 hb4
    rw [if_neg (by omega), if_neg (by omega), if_neg (by omega), if_pos hb4]

/-- Witness for C1 (amended): at the in-bounds tuple `[360,0,0,0]` the
amended theorem yields a successful parse of the unchanged tuple. -/
theorem standard_bounds_amended_witness :
    ThemeRs.StandardHsla.deserialize 360 0 0 0 = .ok ⟨360, 0, 0, 0⟩ :=
  ((standard_bounds_amended 360 0 0 0 (by decide) (by decide) (by decide) (by decide)).1).mpr
    (by decide)

-- ====================================================================
-- C5: normalized-encoded floats never fail, they are clamped
-- ====================================================================

/-- C5: a 4-element float tuple parsed as an override color never causes a
parse error: the untagged `ZedHsla` decode falls through the standard
(integer) variant and succeeds with the normalized variant, whose channels
are clamped into `[0, 1]` by the `hsla` constructor. -/
theorem zed_hsla_normalized_clamps (h s l a : ℚ) :
    ThemeRs.ZedHsla.deserializeNums [.float h, .float s, .float l, .float a] =
      .ok (.hsla (hsla h s l a)) ∧
    (0 ≤ (hsla h s l a).h ∧ (hsla h s l a).h ≤ 1) ∧
    (0 ≤ (hsla h s l a).s ∧ (hsla h s l a).s ≤ 1) ∧
    (0 ≤ (hsla h s l a).l ∧ (hsla h s l a).l ≤ 1) ∧
    (0 ≤ (hsla h s l a).a ∧ (hsla h s l a).a ≤ 1) := by
  refine ⟨rfl, ?_, ?_, ?_, ?_⟩ <;>
    exact ⟨clampQ_nonneg _, clampQ_le_one _⟩

-- ====================================================================
-- C7: unknown identifiers — `UIColors::get` is total, `ColorType::from`
-- panics (code bug relative to the spec's no-abort requirement)
-- ====================================================================

/-- C7: evaluation at the failing input.  `ColorType::from("unknown")`
panics — it aborts the process with the message
`"Unknown color type: unknown"` instead of returning a typed error — while
the only strings it accepts are the three known names; by contrast the
lookup `UIColors::get` on an unknown token name returns the explicit
absent result `none`. -/
theorem color_type_from_unknown_panics :
    MainRs.ColorType.fromString "unknown" =
      .panicked "Unknown color type: unknown" ∧
    (∀ s : String, (∃ c, MainRs.ColorType.fromString s = .ok c) ↔
      s = "fg" ∨ s = "bg" ∨ s = "border") ∧
    UiColorRs.UIColors.new.get "unknown" = none := by
  refine ⟨rfl, ?_, rfl⟩
  intro s
  unfold MainRs.ColorType.fromString
  split_ifs with h1 h2 h3
  · simp [h1]
  · simp [h2]
  · simp [h3]
  · simp [h1, h2, h3]

-- ====================================================================
-- Lexicographic order facts
-- ====================================================================

theorem char_toNat_inj {a b : Char} (h : a.toNat = b.toNat) : a = b :=
  Char.ext (UInt32.eq_of_val_eq (Fin.ext h))

theorem charsLe_refl (x : List Char) : charsLe x x = true := by
  induction x with
  | nil => rfl
  | cons a as ih => simp [charsLe, ih]

theorem charsLe_total (x y : List Char) : charsLe x y = true ∨ charsLe y x = true := by
  induction x generalizing y with
  | nil => exact Or.inl rfl
  | cons a as ih =>
    cases y with
    | nil => exact Or.inr rfl
    | cons b bs =>
      rcases Nat.lt_trichotomy a.toNat b.toNat with hlt | heq | hgt
      · exact Or.inl (by simp [charsLe, hlt])
      · rcases ih bs with h | h
        · exact Or.inl (by simp [charsLe, heq, h])
        · exact Or.inr (by simp [charsLe, heq.symm, h])
      · exact Or.inr (by simp [charsLe, hgt])

theorem charsLe_trans {x y z : List Char}
    (h1 : charsLe x y = true) (h2 : charsLe y z = true) : charsLe x z = true := by
  induction x generalizing y z with
  | nil => rfl
  | cons a as ih =>
    cases y with
    | nil => simp [charsLe] at h1
    | cons b bs =>
      cases z with
      | nil => simp [charsLe] at h2
      | cons c cs =>
        simp only [charsLe, Bool.or_eq_true, Bool.and_eq_true, decide_eq_true_eq,
          beq_iff_eq] at h1 h2 ⊢
        rcases h1 with h1 | ⟨h1e, h1r⟩
        · rcases h2 with h2 | ⟨h2e, h2r⟩
          · exact Or.inl (h1.trans h2)
          · exact Or.inl (by omega)
        · rcases h2 with h2 | ⟨h2e, h2r⟩
          · exact Or.inl (by omega)
          · exact Or.inr ⟨by omega, ih h1r h2r⟩

theorem charsLe_antisymm {x y : List Char}
    (h1 : charsLe x y = true) (h2 : charsLe y x = true) : x = y := by
  induction x generalizing y with
  | nil =>
    cases y with
    | nil => rfl
    | cons b bs => simp [charsLe] at h2
  | cons a as ih =>
    cases y with
    | nil => simp [charsLe] at h1
    | cons b bs =>
      simp only [charsLe, Bool.or_eq_true, Bool.and_eq_true, decide_eq_true_eq,
        beq_iff_eq] at h1 h2
      rcases h1 with h1 | ⟨h1e, h1r⟩
      · rcases h2 with h2 | ⟨h2e, h2r⟩
        · omega
        · omega
      · rcases h2 with h2 | ⟨h2e, h2r⟩
        · omega
        · exact congrArg₂ List.cons (char_toNat_inj h1e) (ih h1r h2r)

theorem strLt_irrefl (s : String) : strLt s s = false := by
  simp [strLt, charsLe_refl]

theorem strLt_trans {a b c : String}
    (h1 : strLt a b = true) (h2 : strLt b c = true) : strLt a c = true := by
  unfold strLt at h1 h2 ⊢
  cases hca : charsLe c.data a.data with
  | false => rfl
  | true =>
    have hba : charsLe b.data a.data = false := by
      cases hx : charsLe b.data a.data
      · rfl
      · rw [hx] at h1
        simp at h1
    have hcb : charsLe c.data b.data = false := by
      cases hx : charsLe c.data b.data
      · rfl
      · rw [hx] at h2
        simp at h2
    have hbc : charsLe b.data c.data = true :=
      (charsLe_total b.data c.data).resolve_right (by simp [hcb])
    have hcontra : charsLe b.data a.data = true := charsLe_trans hbc hca
    rw [hcontra] at hba
    exact absurd hba (by simp)

theorem strLt_of_not_of_ne {k k0 : String}
    (h1 : strLt k k0 = false) (h2 : k ≠ k0) : strLt k0 k = true := by
  unfold strLt at h1 ⊢
  cases hx : charsLe k.data k0.data with
  | false => rfl
  | true =>
    cases hy : charsLe k0.data k.data with
    | false =>
      rw [hy] at h1
      simp at h1
    | true => exact absurd (String.ext (charsLe_antisymm hx hy)) h2

theorem strLt_ne {a b : String} (h : strLt a b = true) : a ≠ b := by
  intro he
  rw [he, strLt_irrefl] at h
  exact Bool.false_ne_true h

-- ====================================================================
-- C9: last write wins in the name-keyed UIColors collection
-- ====================================================================

namespace UiColorRs

/-- The key-order relation of the `BTreeMap` model. -/
def entryLt (p q : String × UIColor) : Prop := strLt p.1 q.1 = true

theorem mem_insertEntry {k : String} {v : UIColor} {l : List (String × UIColor)}
    {p : String × UIColor} (hp : p ∈ insertEntry k v l) : p = (k, v) ∨ p ∈ l := by
  induction l with
  | nil =>
    simp [insertEntry] at hp
    exact Or.inl hp
  | cons hd tl ih =>
    obtain ⟨k0, v0⟩ := hd
    unfold insertEntry at hp
    split_ifs at hp
    · rcases List.mem_cons.mp hp with h | h
      · exact Or.inl h
      · exact Or.inr h
    · rcases List.mem_cons.mp hp with h | h
      · exact Or.inl h
      · exact Or.inr (List.mem_cons_of_mem _ h)
    · rcases List.mem_cons.mp hp with h | h
      · exact Or.inr (by simp [h])
      · rcases ih h with h2 | h2
        · exact Or.inl h2
        · exact Or.inr (List.mem_cons_of_mem _ h2)

theorem wf_insertEntry {l : List (String × UIColor)} (k : String) (v : UIColor)
    (hl : l.Pairwise entryLt) : (insertEntry k v l).Pairwise entryLt := by
  induction l with
  | nil => simp [insertEntry, entryLt]
  | cons hd tl ih =>
    obtain ⟨k0, v0⟩ := hd
    rcases List.pairwise_cons.mp hl with ⟨hhead, htl⟩
    unfold insertEntry
    split_ifs with hlt heq
    · refine List.pairwise_cons.mpr ⟨?_, hl⟩
      rintro ⟨kq, vq⟩ hq
      rcases List.mem_cons.mp hq with hq | hq
      · cases hq
        exact hlt
      · exact strLt_trans hlt (hhead _ hq)
    · refine List.pairwise_cons.mpr ⟨?_, htl⟩
      rintro ⟨kq, vq⟩ hq
      show strLt k kq = true
      rw [heq]
      exact hhead _ hq
    · refine List.pairwise_cons.mpr ⟨?_, ih htl⟩
      rintro ⟨kq, vq⟩ hq
      rcases mem_insertEntry hq with hmem | hmem
      · cases hmem
        exact strLt_of_not_of_ne (Bool.not_eq_true _ ▸ hlt) heq
      · exact hhead _ hmem

theorem filter_keyed_eq_nil {l : List (String × UIColor)} {k : String}
    (h : ∀ p ∈ l, p.1 ≠ k) : l.filter (fun p => p.1 == k) = [] := by
  induction l with
  | nil => rfl
  | cons hd tl ih =>
    rw [List.filter_cons, if_neg (by simpa using h hd (List.mem_cons_self hd tl))]
    exact ih (fun p hp => h p (List.mem_cons_of_mem _ hp))

theorem filter_insertEntry_self (k : String) (v : UIColor)
    {l : List (String × UIColor)} (hl : l.Pairwise entryLt) :
    (insertEntry k v l).filter (fun p => p.1 == k) = [(k, v)] := by
  induction l with
  | nil => simp [insertEntry]
  | cons hd tl ih =>
    obtain ⟨k0, v0⟩ := hd
    rcases List.pairwise_cons.mp hl with ⟨hhead, htl⟩
    unfold insertEntry
    split_ifs with hlt heq
    · have hk0 : k0 ≠ k := fun he => strLt_ne hlt he.symm
      have htlnil : ∀ p ∈ tl, p.1 ≠ k := by
        intro p hp he
        have hthis : strLt k0 p.1 = true := hhead p hp
        rw [he] at hthis
        have hkk : strLt k k = true := strLt_trans hlt hthis
        rw [strLt_irrefl] at hkk
        exact Bool.false_ne_true hkk
      rw [List.filter_cons, if_pos (by simp), List.filter_cons,
        if_neg (by simpa using hk0), filter_keyed_eq_nil htlnil]
    · have htlnil : ∀ p ∈ tl, p.1 ≠ k := by
        intro p hp he
        have hthis : strLt k0 p.1 = true := hhead p hp
        rw [he, heq] at hthis
        rw [strLt_irrefl] at hthis
        exact Bool.false_ne_true hthis
      rw [List.filter_cons, if_pos (by simp), filter_keyed_eq_nil htlnil]
    · rw [List.filter_cons, if_neg (by simpa using fun he => heq he.symm)]
      exact ih htl

theorem find_insertEntry_other (k : String) (v : UIColor)
    (l : List (String × UIColor)) (kq : String) (hk : kq ≠ k) :
    (insertEntry k v l).find? (fun p => p.1 == kq) = l.find? (fun p => p.1 == kq) := by
  have hkk : (k == kq) = false := by simpa using fun he => hk he.symm
  induction l with
  | nil => simp [insertEntry, List.find?, hkk]
  | cons hd tl ih =>
    obtain ⟨k0, v0⟩ := hd
    unfold insertEntry
    split_ifs with hlt heq
    · simp [List.find?_cons, hkk]
    · rw [← heq]
      simp [List.find?_cons, hkk]
    · cases hp : (k0 == kq) with
      | true => simp [List.find?_cons, hp]
      | false =>
        simp only [List.find?_cons, hp]
        exact ih

/-- C9: inserting two colors of the same name in sequence leaves exactly one
entry under that name, equal to the second inserted color, and the lookup of
every other name is unchanged. -/
theorem ui_colors_last_write_wins (m : UIColors) (c1 c2 : UIColor)
    (hwf : WFMap m) (hname : c1.name = c2.name) :
    ((m.add c1).add c2).entries.filter (fun p => p.1 == c2.name) = [(c2.name, c2)] ∧
    (∀ k : String, k ≠ c2.name → ((m.add c1).add c2).get k = m.get k) := by
  constructor
  · exact filter_insertEntry_self c2.name c2 (wf_insertEntry c1.name c1 hwf)
  · intro k hk
    unfold UIColors.get UIColors.add
    rw [find_insertEntry_other _ _ _ _ hk, find_insertEntry_other _ _ _ _ (hname ▸ hk)]

/-- First color of the C9 witness. -/
def neutral1 : UIColor := { name := "neutral", value := [], description := "first" }

/-- Second color of the C9 witness, same name as the first. -/
def neutral2 : UIColor := { name := "neutral", value := [], description := "second" }

/-- Witness for C9: inserting `neutral1` then `neutral2` into the empty
collection leaves exactly the single entry `neutral2` under `"neutral"`. -/
theorem ui_colors_last_write_wins_witness :
    ((UIColors.new.add neutral1).add neutral2).entries.filter
      (fun p => p.1 == neutral2.name) = [(neutral2.name, neutral2)] :=
  (ui_colors_last_write_wins UIColors.new neutral1 neutral2 List.Pairwise.nil rfl).1

end UiColorRs

-- ====================================================================
-- Stable-sort lemmas for the registry queries
-- ====================================================================

theorem filter_orderedInsert_neg {α : Type} (r : α → α → Prop) [DecidableRel r]
    (p : α → Bool) (x : α) (hx : p x = false) (m : List α) :
    (List.orderedInsert r x m).filter p = m.filter p := by
  induction m with
  | nil => simp [List.orderedInsert, hx]
  | cons y m ih =>
    by_cases hr : r x y
    · simp [List.orderedInsert, hr, List.filter_cons, hx]
    · simp only [List.orderedInsert, if_neg hr, List.filter_cons]
      rw [ih]

theorem filter_orderedInsert_pos {α : Type} (r : α → α → Prop) [DecidableRel r]
    (p : α → Bool) (x : α) (hx : p x = true)
    (hcomp : ∀ y, p y = true → r x y) (m : List α) :
    (List.orderedInsert r x m).filter p = x :: m.filter p := by
  induction m with
  | nil => simp [List.orderedInsert, hx]
  | cons y m ih =>
    by_cases hr : r x y
    · simp [List.orderedInsert, hr, List.filter_cons, hx]
    · have hy : p y = false := by
        cases hpy : p y
        · rfl
        · exact absurd (hcomp y hpy) hr
      simp only [List.orderedInsert, if_neg hr, List.filter_cons, hy]
      simpa [hy] using ih

theorem filter_insertionSort_fiber {α : Type} (r : α → α → Prop) [DecidableRel r]
    (p : α → Bool) (hfiber : ∀ x y, p x = true → p y = true → r x y) (l : List α) :
    (List.insertionSort r l).filter p = l.filter p := by
  induction l with
  | nil => rfl
  | cons x l ih =>
    show (List.orderedInsert r x (List.insertionSort r l)).filter p = _
    cases hx : p x
    · rw [filter_orderedInsert_neg r p x hx, ih, List.filter_cons, hx]
      simp
    · rw [filter_orderedInsert_pos r p x hx (fun y => hfiber x y hx), ih,
        List.filter_cons, hx]
      simp

theorem orderedInsert_eq_cons {α : Type} (r : α → α → Prop) [DecidableRel r]
    (x : α) (m : List α) (h : ∀ z ∈ m, r x z) : List.orderedInsert r x m = x :: m := by
  cases m with
  | nil => rfl
  | cons y m => simp [List.orderedInsert, h y (List.mem_cons_self y m)]

theorem filter_orderedInsert_comm {α : Type} (r : α → α → Prop) [DecidableRel r]
    [IsTrans α r] (p : α → Bool) (x : α) (hx : p x = true) (m : List α)
    (hm : List.Sorted r m) :
    (List.orderedInsert r x m).filter p = List.orderedInsert r x (m.filter p) := by
  induction m with
  | nil => simp [List.orderedInsert, hx]
  | cons y m ih =>
    rcases List.sorted_cons.mp hm with ⟨hhead, htl⟩
    by_cases hr : r x y
    · cases hy : p y
      · have hz : ∀ z ∈ m.filter p, r x z := by
          intro z hzm
          exact Trans.trans hr (hhead z (List.mem_filter.mp hzm).1)
        have lhs : (List.orderedInsert r x (y :: m)).filter p = x :: m.filter p := by
          simp [List.orderedInsert, hr, List.filter_cons, hx, hy]
        have rhs : List.orderedInsert r x ((y :: m).filter p) = x :: m.filter p := by
          rw [List.filter_cons]
          simp only [hy, Bool.false_eq_true, if_false]
          exact orderedInsert_eq_cons r x _ hz
        rw [lhs, rhs]
      · simp [List.orderedInsert, hr, List.filter_cons, hx, hy]
    · cases hy : p y
      · simp only [List.orderedInsert, if_neg hr, List.filter_cons, hy]
        simpa [hy] using ih htl
      · simp only [List.orderedInsert, if_neg hr, List.filter_cons, hy]
        rw [ih htl]
        simp [List.orderedInsert, hr, hy]

theorem insertionSort_filter_comm {α : Type} (r : α → α → Prop) [DecidableRel r]
    [IsTotal α r] [IsTrans α r] (p : α → Bool) (l : List α) :
    List.insertionSort r (l.filter p) = (List.insertionSort r l).filter p := by
  induction l with
  | nil => rfl
  | cons x l ih =>
    show List.insertionSort r ((x :: l).filter p) =
      (List.orderedInsert r x (List.insertionSort r l)).filter p
    cases hx : p x
    · rw [List.filter_cons, hx, filter_orderedInsert_neg r p x hx]
      simpa using ih
    · rw [List.filter_cons, hx]
      show List.orderedInsert r x (List.insertionSort r (l.filter p)) = _
      rw [ih, filter_orderedInsert_comm r p x hx _ (List.sorted_insertionSort r l)]

namespace MainRs

instance : IsTotal Theme nameLe :=
  ⟨fun a b => charsLe_total a.name.data b.name.data⟩

instance : IsTrans Theme nameLe :=
  ⟨fun _ _ _ h1 h2 => charsLe_trans h1 h2⟩

-- ====================================================================
-- C6: registry queries are sorted by name, stable, and filtered
-- ====================================================================

/-- C6: `all_themes` returns every variant across every family sorted
ascending by variant name; the sort is stable (elements of any fixed name
keep their relative insertion order — their fiber is unchanged);
`all_dark` / `all_light` return the same list restricted to the matching
appearance; and the `{A:Dark, B:Light, C:Dark}` example produces
`all_dark = [A, C]`, `all_light = [B]`, `all_themes = [A, B, C]`. -/
theorem registry_queries_sorted_stable (r : ThemeRegistry) (n : String) :
    (r.all_themes).Perm (allVariants r) ∧
    List.Sorted nameLe r.all_themes ∧
    r.all_themes.filter (fun t => t.name == n) =
      (allVariants r).filter (fun t => t.name == n) ∧
    r.all_dark = r.all_themes.filter (fun t => t.appearance == Appearance.dark) ∧
    r.all_light = r.all_themes.filter (fun t => t.appearance == Appearance.light) ∧
    (exReg.all_dark = [exA, exC] ∧ exReg.all_light = [exB] ∧
      exReg.all_themes = [exA, exB, exC]) := by
  refine ⟨List.perm_insertionSort nameLe _, List.sorted_insertionSort nameLe _,
    ?_, ?_, ?_, ?_, ?_, ?_⟩
  · refine filter_insertionSort_fiber nameLe _ ?_ _
    intro x y hx hy
    have hx2 : x.name = n := by simpa using hx
    have hy2 : y.name = n := by simpa using hy
    show charsLe x.name.data y.name.data = true
    rw [hx2, hy2]
    exact charsLe_refl n.data
  · show List.insertionSort nameLe
        ((allVariants r).filter (fun t => t.appearance == Appearance.dark)) =
      (List.insertionSort nameLe (allVariants r)).filter
        (fun t => t.appearance == Appearance.dark)
    exact insertionSort_filter_comm nameLe _ (allVariants r)
  · show List.insertionSort nameLe
        ((allVariants r).filter (fun t => t.appearance == Appearance.light)) =
      (List.insertionSort nameLe (allVariants r)).filter
        (fun t => t.appearance == Appearance.light)
    exact insertionSort_filter_comm nameLe _ (allVariants r)
  · decide
  · decide
  · decide

-- ====================================================================
-- C10: all_themes is exactly all_light plus all_dark as a multiset
-- ====================================================================

/-- C10: for every registry the concatenation of `all_light` and `all_dark`
is a permutation of `all_themes`: every variant has exactly one of the two
appearances, so it appears in precisely one of the filtered queries. -/
theorem all_themes_perm_light_dark (r : ThemeRegistry) :
    (r.all_light ++ r.all_dark).Perm r.all_themes := by
  have h1 : (r.all_light).Perm
      ((allVariants r).filter (fun t => t.appearance == Appearance.light)) :=
    List.perm_insertionSort nameLe _
  have h2 : (r.all_dark).Perm
      ((allVariants r).filter (fun t => t.appearance == Appearance.dark)) :=
    List.perm_insertionSort nameLe _
  have hfun : (fun t : Theme => !(t.appearance == Appearance.light)) =
      (fun t : Theme => t.appearance == Appearance.dark) := by
    funext t
    cases t.appearance <;> rfl
  have h3 : (((allVariants r).filter (fun t => t.appearance == Appearance.light)) ++
      ((allVariants r).filter (fun t => t.appearance == Appearance.dark))).Perm
      (allVariants r) := by
    have hp := List.filter_append_perm
      (fun t : Theme => t.appearance == Appearance.light) (allVariants r)
    rwa [hfun] at hp
  have h4 : (allVariants r).Perm r.all_themes :=
    (List.perm_insertionSort nameLe _).symm
  exact ((h1.append h2).trans h3).trans h4

end MainRs

-- ====================================================================
-- Euclidean-remainder evaluation lemmas
-- ====================================================================

theorem qmod2_eq_self {x : ℚ} (h0 : 0 ≤ x) (h1 : x < 2) : qmod2 x = x := by
  have hf : ⌊x / 2⌋ = 0 := by
    rw [Int.floor_eq_iff]
    constructor
    · push_cast
      positivity
    · push_cast
      linarith
  unfold qmod2
  rw [hf]
  ring

theorem qmod2_sub_two {x : ℚ} (h0 : 2 ≤ x) (h1 : x < 4) : qmod2 x = x - 2 := by
  have hf : ⌊x / 2⌋ = 1 := by
    rw [Int.floor_eq_iff]
    constructor
    · push_cast
      linarith
    · push_cast
      linarith
  unfold qmod2
  rw [hf]
  push_cast
  ring

theorem qmod2_sub_four {x : ℚ} (h0 : 4 ≤ x) (h1 : x < 6) : qmod2 x = x - 4 := by
  have hf : ⌊x / 2⌋ = 2 := by
    rw [Int.floor_eq_iff]
    constructor
    · push_cast
      linarith
    · push_cast
      linarith
  unfold qmod2
  rw [hf]
  push_cast
  ring

theorem qmod6_eq_self {x : ℚ} (h0 : 0 ≤ x) (h1 : x < 6) : qmod6 x = x := by
  have hf : ⌊x / 6⌋ = 0 := by
    rw [Int.floor_eq_iff]
    constructor
    · push_cast
      positivity
    · push_cast
      linarith
  unfold qmod6
  rw [hf]
  ring

theorem qmod6_add_six {x : ℚ} (h0 : -6 ≤ x) (h1 : x < 0) : qmod6 x = x + 6 := by
  have hf : ⌊x / 6⌋ = -1 := by
    rw [Int.floor_eq_iff]
    constructor
    · push_cast
      linarith
    · push_cast
      linarith
  unfold qmod6
  rw [hf]
  push_cast
  ring

-- ====================================================================
-- Branch evaluations of hslaToRgba at hue sixths t ∈ [0, 6)
-- ====================================================================

theorem hslaToRgba_b0 (t s l al : ℚ) (h0 : 0 ≤ t) (h1 : t < 1) :
    hslaToRgba { h := t / 6, s := s, l := l, a := al } =
      { r := (1 - |2 * l - 1|) * s + (l - (1 - |2 * l - 1|) * s / 2)
        g := (1 - |2 * l - 1|) * s * t + (l - (1 - |2 * l - 1|) * s / 2)
        b := l - (1 - |2 * l - 1|) * s / 2
        a := al } := by
  have ht6 : t / 6 * 6 = t := div_mul_cancel₀ t (by norm_num)
  have habs : |qmod2 t - 1| = 1 - t := by
    rw [qmod2_eq_self h0 (by linarith), abs_of_nonpos (by linarith)]
    ring
  simp only [hslaToRgba, ht6, habs]
  rw [if_pos (by linarith), Rgba.mk.injEq]
  refine ⟨by ring, by ring, by ring, rfl⟩

theorem hslaToRgba_b1 (t s l al : ℚ) (h0 : 1 ≤ t) (h1 : t < 2) :
    hslaToRgba { h := t / 6, s := s, l := l, a := al } =
      { r := (1 - |2 * l - 1|) * s * (2 - t) + (l - (1 - |2 * l - 1|) * s / 2)
        g := (1 - |2 * l - 1|) * s + (l - (1 - |2 * l - 1|) * s / 2)
        b := l - (1 - |2 * l - 1|) * s / 2
        a := al } := by
  have ht6 : t / 6 * 6 = t := div_mul_cancel₀ t (by norm_num)
  have habs : |qmod2 t - 1| = t - 1 := by
    rw [qmod2_eq_self (by linarith) h1, abs_of_nonneg (by linarith)]
  simp only [hslaToRgba, ht6, habs]
  rw [if_neg (by linarith), if_pos (by linarith), Rgba.mk.injEq]
  refine ⟨by ring, by ring, by ring, rfl⟩

theorem hslaToRgba_b2 (t s l al : ℚ) (h0 : 2 ≤ t) (h1 : t < 3) :
    hslaToRgba { h := t / 6, s := s, l := l, a := al } =
      { r := l - (1 - |2 * l - 1|) * s / 2
        g := (1 - |2 * l - 1|) * s + (l - (1 - |2 * l - 1|) * s / 2)
        b := (1 - |2 * l - 1|) * s * (t - 2) + (l - (1 - |2 * l - 1|) * s / 2)
        a := al } := by
  have ht6 : t / 6 * 6 = t := div_mul_cancel₀ t (by norm_num)
  have habs : |qmod2 t - 1| = 3 - t := by
    rw [qmod2_sub_two h0 (by linarith), abs_of_nonpos (by linarith)]
    ring
  simp only [hslaToRgba, ht6, habs]
  rw [if_neg (by linarith), if_neg (by linarith), if_pos (by linarith), Rgba.mk.injEq]
  refine ⟨by ring, by ring, by ring, rfl⟩

theorem hslaToRgba_b3 (t s l al : ℚ) (h0 : 3 ≤ t) (h1 : t < 4) :
    hslaToRgba { h := t / 6, s := s, l := l, a := al } =
      { r := l - (1 - |2 * l - 1|) * s / 2
        g := (1 - |2 * l - 1|) * s * (4 - t) + (l - (1 - |2 * l - 1|) * s / 2)
        b := (1 - |2 * l - 1|) * s + (l - (1 - |2 * l - 1|) * s / 2)
        a := al } := by
  have ht6 : t / 6 * 6 = t := div_mul_cancel₀ t (by norm_num)
  have habs : |qmod2 t - 1| = t - 3 := by
    rw [qmod2_sub_two (by linarith) h1, abs_of_nonneg (by linarith)]
    ring
  simp only [hslaToRgba, ht6, habs]
  rw [if_neg (by linarith), if_neg (by linarith), if_neg (by linarith),
    if_pos (by linarith), Rgba.mk.injEq]
  refine ⟨by ring, by ring, by ring, rfl⟩

theorem hslaToRgba_b4 (t s l al : ℚ) (h0 : 4 ≤ t) (h1 : t < 5) :
    hslaToRgba { h := t / 6, s := s, l := l, a := al } =
      { r := (1 - |2 * l - 1|) * s * (t - 4) + (l - (1 - |2 * l - 1|) * s / 2)
        g := l - (1 - |2 * l - 1|) * s / 2
        b := (1 - |2 * l - 1|) * s + (l - (1 - |2 * l - 1|) * s / 2)
        a := al } := by
  have ht6 : t / 6 * 6 = t := div_mul_cancel₀ t (by norm_num)
  have habs : |qmod2 t - 1| = 5 - t := by
    rw [qmod2_sub_four h0 (by linarith), abs_of_nonpos (by linarith)]
    ring
  simp only [hslaToRgba, ht6, habs]
  rw [if_neg (by linarith), if_neg (by linarith), if_neg (by linarith),
    if_neg (by linarith), if_pos (by linarith), Rgba.mk.injEq]
  refine ⟨by ring, by ring, by ring, rfl⟩

theorem hslaToRgba_b5 (t s l al : ℚ) (h0 : 5 ≤ t) (h1 : t < 6) :
    hslaToRgba { h := t / 6, s := s, l := l, a := al } =
      { r := (1 - |2 * l - 1|) * s + (l - (1 - |2 * l - 1|) * s / 2)
        g := l - (1 - |2 * l - 1|) * s / 2
        b := (1 - |2 * l - 1|) * s * (6 - t) + (l - (1 - |2 * l - 1|) * s / 2)
        a := al } := by
  have ht6 : t / 6 * 6 = t := div_mul_cancel₀ t (by norm_num)
  have habs : |qmod2 t - 1| = t - 5 := by
    rw [qmod2_sub_four (by linarith) h1, abs_of_nonneg (by linarith)]
    ring
  simp only [hslaToRgba, ht6, habs]
  rw [if_neg (by linarith), if_neg (by linarith), if_neg (by linarith),
    if_neg (by linarith), if_neg (by linarith), Rgba.mk.injEq]
  refine ⟨by ring, by ring, by ring, rfl⟩

-- ====================================================================
-- The HSL ↔ RGB round trip, exact over ℚ
-- ====================================================================

theorem hslaToRgba_rgbaToHsla (c : Rgba)
    (hcr0 : 0 ≤ c.r) (hcr1 : c.r ≤ 1) (hcg0 : 0 ≤ c.g) (hcg1 : c.g ≤ 1)
    (hcb0 : 0 ≤ c.b) (hcb1 : c.b ≤ 1) :
    hslaToRgba (rgbaToHsla c) = c := by
  obtain ⟨r, g, b, a⟩ := c
  simp only at hcr0 hcr1 hcg0 hcg1 hcb0 hcb1
  simp only [rgbaToHsla]
  have hminr : min r (min g b) ≤ r := min_le_left _ _
  have hming : min r (min g b) ≤ g := le_trans (min_le_right r _) (min_le_left g b)
  have hminb : min r (min g b) ≤ b := le_trans (min_le_right r _) (min_le_right g b)
  have hmaxr : r ≤ max r (max g b) := le_max_left _ _
  have hmaxg : g ≤ max r (max g b) := le_trans (le_max_left g b) (le_max_right r _)
  have hmaxb : b ≤ max r (max g b) := le_trans (le_max_right g b) (le_max_right r _)
  have hmin0 : 0 ≤ min r (min g b) := le_min hcr0 (le_min hcg0 hcb0)
  have hmax1 : max r (max g b) ≤ 1 := max_le hcr1 (max_le hcg1 hcb1)
  by_cases hC0 : max r (max g b) - min r (min g b) = 0
  · -- chroma is zero: all three channels are equal
    have hVM : max r (max g b) = min r (min g b) := by linarith
    have hgr : g = r := le_antisymm (by linarith [hVM ▸ hmaxg]) (by linarith [hVM ▸ hmaxr])
    have hbr : b = r := le_antisymm (by linarith [hVM ▸ hmaxb]) (by linarith [hVM ▸ hmaxr])
    rw [hgr, hbr] at hC0 ⊢
    simp only [max_self, min_self] at hC0 ⊢
    rw [if_pos hC0]
    have hsat : (if (r + r) / 2 = 0 ∨ (r + r) / 2 = 1 then (0:ℚ)
        else (r - r) / (1 - |2 * ((r + r) / 2) - 1|)) = 0 := by
      split_ifs
      · rfl
      · rw [sub_self, zero_div]
    rw [hsat, hslaToRgba_b0 0 0 ((r + r) / 2) a (le_refl 0) (by norm_num),
      Rgba.mk.injEq]
    refine ⟨by ring, by ring, by ring, rfl⟩
  · -- chroma is positive
    have hminmax : min r (min g b) < max r (max g b) :=
      lt_of_le_of_ne (le_trans hminr hmaxr) (fun he => hC0 (by linarith))
    have hlum : ¬((max r (max g b) + min r (min g b)) / 2 = 0 ∨
        (max r (max g b) + min r (min g b)) / 2 = 1) := by
      rintro (he | he)
      · linarith
      · linarith
    rw [if_neg hC0, if_neg hlum]
    by_cases hVr : max r (max g b) = r
    · -- the maximum is r
      rw [if_pos hVr, hVr]
      rw [hVr] at hmaxg hmaxb hminmax
      by_cases hgb : b ≤ g
      · -- the minimum is b
        have hbr : b ≤ r := hmaxb
        have hMb : min r (min g b) = b := by
          rw [min_eq_right hgb, min_eq_right hbr]
        rw [hMb]
        rw [hMb] at hminmax hmin0
        have hCpos : (0:ℚ) < r - b := by linarith
        have hCne : r - b ≠ 0 := hCpos.ne'
        have hD : (1 - |2 * ((r + b) / 2) - 1|) ≠ 0 := by
          have habs : |2 * ((r + b) / 2) - 1| < 1 := by
            rw [abs_lt]
            exact ⟨by linarith, by linarith⟩
          linarith
        have ht0 : 0 ≤ (g - b) / (r - b) := div_nonneg (by linarith) hCpos.le
        have ht1 : (g - b) / (r - b) ≤ 1 := (div_le_one hCpos).mpr (by linarith)
        rw [qmod6_eq_self ht0 (by linarith)]
        by_cases htop : (g - b) / (r - b) < 1
        · rw [hslaToRgba_b0 _ _ _ _ ht0 htop, Rgba.mk.injEq]
          set A := |2 * ((r + b) / 2) - 1| with hA
          refine ⟨?_, ?_, ?_, rfl⟩ <;> field_simp [hD, hCne] <;> ring
        · have hteq : (g - b) / (r - b) = 1 := le_antisymm ht1 (not_lt.mp htop)
          have hgeq : g = r := by
            have hge := (div_eq_one_iff_eq hCne).mp hteq
            linarith
          rw [hteq, hslaToRgba_b1 1 _ _ _ (le_refl 1) (by norm_num), Rgba.mk.injEq, hgeq]
          set A := |2 * ((r + b) / 2) - 1| with hA
          refine ⟨?_, ?_, ?_, rfl⟩ <;> field_simp [hD, hCne] <;> ring
      · -- the minimum is g
        have hgb2 : g < b := lt_of_not_le hgb
        have hgr : g ≤ r := hmaxg
        have hMg : min r (min g b) = g := by
          rw [min_eq_left hgb2.le, min_eq_right hgr]
        rw [hMg]
        rw [hMg] at hminmax hmin0
        have hCpos : (0:ℚ) < r - g := by linarith
        have hCne : r - g ≠ 0 := hCpos.ne'
        have hD : (1 - |2 * ((r + g) / 2) - 1|) ≠ 0 := by
          have habs : |2 * ((r + g) / 2) - 1| < 1 := by
            rw [abs_lt]
            exact ⟨by linarith, by linarith⟩
          linarith
        have htneg : (g - b) / (r - g) < 0 :=
          div_neg_of_neg_of_pos (by linarith) hCpos
        have htlo : (-1:ℚ) ≤ (g - b) / (r - g) := by
          rw [le_div_iff hCpos]
          linarith
        rw [qmod6_add_six (by linarith) htneg]
        rw [hslaToRgba_b5 _ _ _ _ (by linarith) (by linarith), Rgba.mk.injEq]
        set A := |2 * ((r + g) / 2) - 1| with hA
        refine ⟨?_, ?_, ?_, rfl⟩ <;> field_simp [hD, hCne] <;> ring
    · -- the maximum is not r
      rw [if_neg hVr]
      by_cases hVg : max r (max g b) = g
      · -- the maximum is g
        rw [if_pos hVg, hVg]
        rw [hVg] at hVr hmaxr hmaxb hminmax
        have hrg : r < g := lt_of_le_of_ne hmaxr (fun he => hVr he.symm)
        by_cases hrb : r ≤ b
        · -- the minimum is r
          have hMr : min r (min g b) = r :=
            min_eq_left (le_min hrg.le hrb)
          rw [hMr]
          rw [hMr] at hminmax hmin0
          have hCpos : (0:ℚ) < g - r := by linarith
          have hCne : g - r ≠ 0 := hCpos.ne'
          have hD : (1 - |2 * ((g + r) / 2) - 1|) ≠ 0 := by
            have habs : |2 * ((g + r) / 2) - 1| < 1 := by
              rw [abs_lt]
              exact ⟨by linarith, by linarith⟩
            linarith
          have ht0 : 0 ≤ (b - r) / (g - r) := div_nonneg (by linarith) hCpos.le
          have ht1 : (b - r) / (g - r) ≤ 1 := (div_le_one hCpos).mpr (by linarith)
          by_cases htop : (b - r) / (g - r) + 2 < 3
          · rw [hslaToRgba_b2 _ _ _ _ (by linarith) htop, Rgba.mk.injEq]
            set A := |2 * ((g + r) / 2) - 1| with hA
            refine ⟨?_, ?_, ?_, rfl⟩ <;> field_simp [hD, hCne] <;> ring
          · have hteq : (b - r) / (g - r) = 1 :=
              le_antisymm ht1 (by linarith [not_lt.mp htop])
            have hbeq : b = g := by
              have hge := (div_eq_one_iff_eq hCne).mp hteq
              linarith
            rw [hteq, hslaToRgba_b3 (1 + 2) _ _ _ (by norm_num) (by norm_num),
              Rgba.mk.injEq, hbeq]
            set A := |2 * ((g + r) / 2) - 1| with hA
            refine ⟨?_, ?_, ?_, rfl⟩ <;> field_simp [hD, hCne] <;> ring
        · -- the minimum is b
          have hbr : b < r := lt_of_not_le hrb
          have hbg : b ≤ g := hmaxb
          have hMb : min r (min g b) = b := by
            rw [min_eq_right hbg, min_eq_right hbr.le]
          rw [hMb]
          rw [hMb] at hminmax hmin0
          have hCpos : (0:ℚ) < g - b := by linarith
          have hCne : g - b ≠ 0 := hCpos.ne'
          have hD : (1 - |2 * ((g + b) / 2) - 1|) ≠ 0 := by
            have habs : |2 * ((g + b) / 2) - 1| < 1 := by
              rw [abs_lt]
              exact ⟨by linarith, by linarith⟩
            linarith
          have htneg : (b - r) / (g - b) < 0 :=
            div_neg_of_neg_of_pos (by linarith) hCpos
          have htlo : (-1:ℚ) < (b - r) / (g - b) := by
            rw [lt_div_iff hCpos]
            linarith
          rw [hslaToRgba_b1 _ _ _ _ (by linarith) (by linarith), Rgba.mk.injEq]
          set A := |2 * ((g + b) / 2) - 1| with hA
          refine ⟨?_, ?_, ?_, rfl⟩ <;> field_simp [hD, hCne] <;> ring
      · -- the maximum is b
        rw [if_neg hVg]
        have hVb : max r (max g b) = b := by
          rcases max_choice r (max g b) with h | h
          · exact absurd h hVr
          · rcases max_choice g b with h2 | h2
            · exact absurd (h.trans h2) hVg
            · exact h.trans h2
        rw [hVb]
        rw [hVb] at hVr hVg hmaxr hmaxg hminmax
        have hrb : r < b := lt_of_le_of_ne hmaxr (fun he => hVr he.symm)
        have hgb : g < b := lt_of_le_of_ne hmaxg (fun he => hVg he.symm)
        by_cases hgr : g ≤ r
        · -- the minimum is g
          have hMg : min r (min g b) = g := by
            rw [min_eq_left hgb.le, min_eq_right hgr]
          rw [hMg]
          rw [hMg] at hminmax hmin0
          have hCpos : (0:ℚ) < b - g := by linarith
          have hCne : b - g ≠ 0 := hCpos.ne'
          have hD : (1 - |2 * ((b + g) / 2) - 1|) ≠ 0 := by
            have habs : |2 * ((b + g) / 2) - 1| < 1 := by
              rw [abs_lt]
              exact ⟨by linarith, by linarith⟩
            linarith
          have ht0 : 0 ≤ (r - g) / (b - g) := div_nonneg (by linarith) hCpos.le
          have ht1 : (r - g) / (b - g) < 1 := (div_lt_one hCpos).mpr (by linarith)
          rw [hslaToRgba_b4 _ _ _ _ (by linarith) (by linarith), Rgba.mk.injEq]
          set A := |2 * ((b + g) / 2) - 1| with hA
          refine ⟨?_, ?_, ?_, rfl⟩ <;> field_simp [hD, hCne] <;> ring
        · -- the minimum is r
          have hrg : r < g := lt_of_not_le hgr
          have hMr : min r (min g b) = r :=
            min_eq_left (le_min hrg.le hrb.le)
          rw [hMr]
          rw [hMr] at hminmax hmin0
          have hCpos : (0:ℚ) < b - r := by linarith
          have hCne : b - r ≠ 0 := hCpos.ne'
          have hD : (1 - |2 * ((b + r) / 2) - 1|) ≠ 0 := by
            have habs : |2 * ((b + r) / 2) - 1| < 1 := by
              rw [abs_lt]
              exact ⟨by linarith, by linarith⟩
            linarith
          have htneg : (r - g) / (b - r) < 0 :=
            div_neg_of_neg_of_pos (by linarith) hCpos
          have htlo : (-1:ℚ) < (r - g) / (b - r) := by
            rw [lt_div_iff hCpos]
            linarith
          rw [hslaToRgba_b3 _ _ _ _ (by linarith) (by linarith), Rgba.mk.injEq]
          set A := |2 * ((b + r) / 2) - 1| with hA
          refine ⟨?_, ?_, ?_, rfl⟩ <;> field_simp [hD, hCne] <;> ring

-- ====================================================================
-- C2: hex decode / re-encode reproduces the byte quadruple
-- ====================================================================

theorem hexVal_hexDigitU {k : ℕ} (hk : k < 16) : hexVal (hexDigitU k) = some k := by
  interval_cases k <;> rfl

theorem hexByte_byteHex {n : ℕ} (hn : n ≤ 255) :
    hexByte (hexDigitU (n / 16)) (hexDigitU (n % 16)) = some n := by
  unfold hexByte
  rw [hexVal_hexDigitU (show n / 16 < 16 by omega),
    hexVal_hexDigitU (show n % 16 < 16 by omega)]
  show some (16 * (n / 16) + n % 16) = some n
  exact congrArg some (by omega)

theorem rgbaParse_hexLiteral (r g b a : ℕ) (hr : r ≤ 255) (hg : g ≤ 255)
    (hb : b ≤ 255) (ha : a ≤ 255) :
    Rgba.tryFrom (hexLiteral r g b a) =
      .ok { r := (r:ℚ)/255, g := (g:ℚ)/255, b := (b:ℚ)/255, a := (a:ℚ)/255 } := by
  show rgbaParse ('#' :: (byteHexChars r ++ byteHexChars g ++
    byteHexChars b ++ byteHexChars a)) = _
  simp only [byteHexChars, List.cons_append, List.nil_append, rgbaParse]
  rw [hexByte_byteHex hr, hexByte_byteHex hg, hexByte_byteHex hb, hexByte_byteHex ha]

theorem castU8_of_byte {n : ℕ} (hn : n ≤ 255) : castU8 ((n:ℚ)/255 * 255) = n := by
  have he : ((n:ℚ)/255) * 255 = (n:ℚ) := div_mul_cancel₀ _ (by norm_num)
  rw [castU8, he, Int.floor_natCast]
  omega

/-- C2: for every byte quadruple `(r, g, b, a)` with each component in
`[0, 255]`, decoding the 8-digit hex literal formed from those bytes into an
`Hsla` succeeds, and re-encoding the result with `to_hex` reproduces the
identical 8-hex-digit string. -/
theorem hex_roundtrip (r g b a : ℕ) (hr : r ≤ 255) (hg : g ≤ 255)
    (hb : b ≤ 255) (ha : a ≤ 255) :
    ∃ c : Hsla, Hsla.from_hex (hexLiteral r g b a) = .ok c ∧
      c.to_hex = hexLiteral r g b a := by
  have hle1 : ∀ n : ℕ, n ≤ 255 → (n:ℚ)/255 ≤ 1 := fun n hn =>
    (div_le_one (by norm_num)).mpr (by exact_mod_cast hn)
  refine ⟨rgbaToHsla { r := (r:ℚ)/255, g := (g:ℚ)/255, b := (b:ℚ)/255, a := (a:ℚ)/255 },
    ?_, ?_⟩
  · unfold Hsla.from_hex
    rw [rgbaParse_hexLiteral r g b a hr hg hb ha]
  · unfold Hsla.to_hex
    rw [hslaToRgba_rgbaToHsla _ (by positivity) (hle1 r hr) (by positivity) (hle1 g hg)
      (by positivity) (hle1 b hb)]
    show String.mk ('#' :: (byteHexChars (castU8 ((r:ℚ)/255 * 255)) ++
      byteHexChars (castU8 ((g:ℚ)/255 * 255)) ++
      byteHexChars (castU8 ((b:ℚ)/255 * 255)) ++
      byteHexChars (castU8 ((a:ℚ)/255 * 255)))) = hexLiteral r g b a
    rw [castU8_of_byte hr, castU8_of_byte hg, castU8_of_byte hb, castU8_of_byte ha]
    rfl

/-- Witness for C2 at the byte quadruple `(255, 0, 255, 128)` — the spec's
`#FF00FF80` example. -/
theorem hex_roundtrip_witness :
    hexLiteral 255 0 255 128 = "#FF00FF80" ∧
    ∃ c : Hsla, Hsla.from_hex (hexLiteral 255 0 255 128) = .ok c ∧
      c.to_hex = hexLiteral 255 0 255 128 :=
  ⟨by decide,
    hex_roundtrip 255 0 255 128 (by norm_num) (by norm_num) (by norm_num) (by norm_num)⟩

-- ====================================================================
-- C3: parser-inverts-serializer lemmas
-- ====================================================================

namespace ThemeRs

theorem matchLit_append (lit rest : List Char) : matchLit lit (lit ++ rest) = some rest := by
  induction lit with
  | nil => rfl
  | cons e es ih => simp [matchLit, ih]

theorem parseStrAux_escStr (s rest : List Char) :
    parseStrAux false (escStr s ++ '"' :: rest) = some (s, rest) := by
  induction s with
  | nil => rfl
  | cons ch s ih =>
    by_cases h1 : ch = '"' ∨ ch = '\\'
    · have hstep : escStr (ch :: s) ++ '"' :: rest =
          '\\' :: ch :: (escStr s ++ '"' :: rest) := by
        simp [escStr, escChar, h1]
      rw [hstep]
      rcases h1 with h1 | h1 <;> subst h1 <;> simp [parseStrAux, ih]
    · push_neg at h1
      by_cases h2 : ch = '\n'
      · have hstep : escStr (ch :: s) ++ '"' :: rest =
            '\\' :: 'n' :: (escStr s ++ '"' :: rest) := by
          simp [escStr, escChar, h1.1, h1.2, h2]
        rw [hstep, h2]
        simp [parseStrAux, ih]
      · by_cases h3 : ch = '\t'
        · have hstep : escStr (ch :: s) ++ '"' :: rest =
              '\\' :: 't' :: (escStr s ++ '"' :: rest) := by
            simp [escStr, escChar, h1.1, h1.2, h2, h3]
          rw [hstep, h3]
          simp [parseStrAux, ih]
        · by_cases h4 : ch = '\r'
          · have hstep : escStr (ch :: s) ++ '"' :: rest =
                '\\' :: 'r' :: (escStr s ++ '"' :: rest) := by
              simp [escStr, escChar, h1.1, h1.2, h2, h3, h4]
            rw [hstep, h4]
            simp [parseStrAux, ih]
          · have hstep : escStr (ch :: s) ++ '"' :: rest =
                ch :: (escStr s ++ '"' :: rest) := by
              simp [escStr, escChar, h1.1, h1.2, h2, h3, h4]
            rw [hstep]
            simp [parseStrAux, h1.1, h1.2, ih]

theorem parseStr_escStr (s rest : List Char) :
    parseStr (escStr s ++ '"' :: rest) = some (s, rest) := parseStrAux_escStr s rest

theorem digitChar10_isDigit (k : ℕ) : (digitChar10 k).isDigit = true := by
  unfold digitChar10
  split <;> rfl

theorem digitChar10_toNat {k : ℕ} (hk : k < 10) :
    (digitChar10 k).toNat - '0'.toNat = k := by
  interval_cases k <;> rfl

theorem natCharsAux_digits {fuel n : ℕ} {c : Char}
    (hc : c ∈ natCharsAux fuel n) : c.isDigit = true := by
  induction fuel generalizing n with
  | zero => simp [natCharsAux] at hc
  | succ fuel ih =>
    unfold natCharsAux at hc
    split_ifs at hc
    · rcases List.mem_singleton.mp hc with h
      rw [h]
      exact digitChar10_isDigit n
    · rcases List.mem_append.mp hc with h | h
      · exact ih h
      · rw [List.mem_singleton.mp h]
        exact digitChar10_isDigit (n % 10)

theorem natChars_digits {n : ℕ} {c : Char} (hc : c ∈ natChars n) : c.isDigit = true :=
  natCharsAux_digits hc

theorem natChars_ne_nil (n : ℕ) : natChars n ≠ [] := by
  unfold natChars natCharsAux
  split_ifs <;> simp

theorem natChars_isEmpty (n : ℕ) : (natChars n).isEmpty = false := by
  cases h : natChars n with
  | nil => exact absurd h (natChars_ne_nil n)
  | cons a as => rfl

theorem foldl_digits_aux (fuel : ℕ) :
    ∀ n acc, n < 10 ^ fuel →
      List.foldl (fun acc ch => 10 * acc + (ch.toNat - '0'.toNat)) acc (natCharsAux fuel n) =
        acc * 10 ^ (natCharsAux fuel n).length + n := by
  induction fuel with
  | zero =>
    intro n acc hn
    interval_cases n
    simp [natCharsAux]
  | succ fuel ih =>
    intro n acc hn
    by_cases h10 : n < 10
    · simp only [natCharsAux, if_pos h10, List.foldl_cons, List.foldl_nil,
        List.length_singleton]
      rw [digitChar10_toNat h10]
      ring
    · simp only [natCharsAux, if_neg h10, List.foldl_append, List.foldl_cons,
        List.foldl_nil, List.length_append, List.length_singleton]
      rw [ih (n / 10) acc (by omega), digitChar10_toNat (by omega)]
      rw [pow_succ]
      have hmod : 10 * (n / 10) + n % 10 = n := by omega
      ring_nf
      omega

theorem parseNatChars_natChars (n : ℕ) : parseNatChars (natChars n) = n := by
  unfold parseNatChars natChars
  rw [foldl_digits_aux (n + 1) n 0
    (lt_of_lt_of_le (Nat.lt_pow_self (by norm_num) n) (Nat.pow_le_pow_right (by norm_num) (by omega)))]
  ring

end ThemeRs

namespace ThemeRs

theorem takeWhile_digits {p : Char → Bool} {xs : List Char} {y : Char} {ys : List Char}
    (hxs : ∀ c ∈ xs, p c = true) (hy : p y = false) :
    (xs ++ y :: ys).takeWhile p = xs ∧ (xs ++ y :: ys).dropWhile p = y :: ys := by
  induction xs with
  | nil => simp [List.takeWhile, List.dropWhile, hy]
  | cons x xs ih =>
    have hx : p x = true := hxs x (List.mem_cons_self x xs)
    have hxs2 : ∀ c ∈ xs, p c = true := fun c hc => hxs c (List.mem_cons_of_mem _ hc)
    rcases ih hxs2 with ⟨h1, h2⟩
    constructor
    · simp [List.cons_append, List.takeWhile_cons, hx, h1]
    · simp [List.cons_append, List.dropWhile_cons, hx, h2]

theorem parseNum_int (n : ℕ) (r0 : Char) (rest : List Char)
    (hr0 : r0.isDigit = false) (hdot : r0 ≠ '.') :
    parseNum (natChars n ++ r0 :: rest) = some (.int (n : ℤ), r0 :: rest) := by
  rcases takeWhile_digits (fun c hc => natChars_digits hc) hr0 with ⟨h1, h2⟩
  simp only [parseNum]
  rw [h1, h2, natChars_isEmpty n]
  simp [hdot, parseNatChars_natChars]

theorem foldl_zero_digits (z : ℕ) (ds : List Char) :
    List.foldl (fun acc ch => 10 * acc + (ch.toNat - '0'.toNat)) 0
      (List.replicate z '0' ++ ds) =
    List.foldl (fun acc ch => 10 * acc + (ch.toNat - '0'.toNat)) 0 ds := by
  induction z with
  | zero => rfl
  | succ z ih => simpa [List.replicate_succ] using ih

theorem padZeros_digits {k : ℕ} {ds : List Char} {c : Char}
    (hds : ∀ ch ∈ ds, ch.isDigit = true) (hc : c ∈ padZeros k ds) : c.isDigit = true := by
  unfold padZeros at hc
  rcases List.mem_append.mp hc with h | h
  · rw [List.eq_of_mem_replicate h]
    rfl
  · exact hds c h

theorem padZeros_length {k : ℕ} {ds : List Char} (h : ds.length ≤ k) :
    (padZeros k ds).length = k := by
  unfold padZeros
  rw [List.length_append, List.length_replicate]
  omega

theorem natChars_length_le : ∀ fuel n k : ℕ, n < 10 ^ k → 1 ≤ k →
    (natCharsAux fuel n).length ≤ k := by
  intro fuel
  induction fuel with
  | zero =>
    intro n k hn hk
    simp [natCharsAux]
  | succ fuel ih =>
    intro n k hn hk
    by_cases h10 : n < 10
    · simp only [natCharsAux, if_pos h10, List.length_singleton]
      omega
    · have hk2 : 2 ≤ k := by
        by_contra hc
        have hk1 : k = 1 := by omega
        rw [hk1, pow_one] at hn
        omega
      have hdiv : n / 10 < 10 ^ (k - 1) := by
        rw [Nat.div_lt_iff_lt_mul (by norm_num)]
        have hpow : 10 ^ (k - 1) * 10 = 10 ^ k := by
          rw [← pow_succ]
          congr 1
          omega
        omega
      simp only [natCharsAux, if_neg h10, List.length_append, List.length_singleton]
      have := ih (n / 10) (k - 1) hdiv (by omega)
      omega

end ThemeRs

namespace ThemeRs

theorem parseNatChars_padZeros (z : ℕ) (m : ℕ) :
    parseNatChars (List.replicate z '0' ++ natChars m) = m := by
  unfold parseNatChars
  rw [foldl_zero_digits]
  exact parseNatChars_natChars m

end ThemeRs

namespace ThemeRs

theorem parseNum_ratDec (q : ℚ) (h0 : 0 ≤ q) (ds : List Char)
    (hds : ratDecChars q = some ds) (r0 : Char) (rest : List Char)
    (hr0 : r0.isDigit = false) (hdot : r0 ≠ '.') :
    parseNum (ds ++ r0 :: rest) = some (.float q, r0 :: rest) := by
  have hnum : ((q.num.natAbs : ℤ) : ℚ) = (q.num : ℚ) := by
    rw [Int.natAbs_of_nonneg (Rat.num_nonneg.mpr h0)]
  have hdpos : 0 < q.den := Nat.pos_of_ne_zero q.den_nz
  unfold ratDecChars at hds
  rcases hk : decScale q with _ | k
  · rw [hk] at hds
    exact absurd hds (by simp)
  · rw [hk, Option.map_some'] at hds
    rw [Option.some.injEq] at hds
    simp only at hds
    have hdvd : q.den ∣ 10 ^ k := by
      have hfind := List.find?_some hk
      exact Nat.dvd_of_mod_eq_zero (by simpa using hfind)
    have hcmul : q.den * (10 ^ k / q.den) = 10 ^ k := Nat.mul_div_cancel' hdvd
    have hcne : (10 ^ k / q.den) ≠ 0 := by
      intro hzero
      rw [hzero, Nat.mul_zero] at hcmul
      have hp : (0:ℕ) < 10 ^ k := pow_pos (by norm_num) k
      omega
    by_cases hk0 : k = 0
    · subst hk0
      rw [if_pos rfl] at hds
      have hden1 : q.den = 1 := Nat.dvd_one.mp (by simpa using hdvd)
      have hmag : q.num.natAbs * (10 ^ 0 / q.den) = q.num.natAbs := by
        rw [hden1]
        simp
      rw [hmag] at hds
      rw [← hds]
      have hassoc : (natChars q.num.natAbs ++ ['.', '0']) ++ r0 :: rest =
          natChars q.num.natAbs ++ '.' :: '0' :: r0 :: rest := by
        simp
      rw [hassoc]
      rcases @takeWhile_digits Char.isDigit (natChars q.num.natAbs) '.' ('0' :: r0 :: rest)
        (fun c hc => natChars_digits hc) (show ('.').isDigit = false from rfl) with ⟨t1, t2⟩
      have t3 := @takeWhile_digits Char.isDigit ['0'] r0 rest
        (by intro c hc; rw [List.mem_singleton.mp hc]; rfl) hr0
      simp only [List.singleton_append] at t3
      simp only [parseNum]
      rw [t1, t2, natChars_isEmpty]
      simp only [Bool.false_eq_true, if_false, List.head?_cons, List.tail_cons]
      rw [if_pos trivial, t3.1, t3.2]
      rw [if_neg (by simp [List.isEmpty])]
      have hq : (parseNatChars (natChars q.num.natAbs) : ℚ) +
          (parseNatChars ['0'] : ℚ) / 10 ^ (['0'] : List Char).length = q := by
        rw [parseNatChars_natChars]
        have hz : parseNatChars ['0'] = 0 := rfl
        rw [hz]
        have hq2 : ((q.num.natAbs : ℕ) : ℚ) = q := by
          have hd := Rat.num_div_den q
          rw [hden1] at hd
          rw [show ((q.num.natAbs : ℕ) : ℚ) = ((q.num.natAbs : ℤ) : ℚ) from
            (Int.cast_natCast _).symm, hnum]
          simpa using hd
        simp [hq2]
      rw [hq]
    · rw [if_neg hk0] at hds
      rw [← hds]
      set mag := q.num.natAbs * (10 ^ k / q.den) with hmagdef
      have hassoc : (natChars (mag / 10 ^ k) ++
          '.' :: padZeros k (natChars (mag % 10 ^ k))) ++ r0 :: rest =
          natChars (mag / 10 ^ k) ++
          '.' :: (padZeros k (natChars (mag % 10 ^ k)) ++ r0 :: rest) := by
        simp
      rw [hassoc]
      rcases @takeWhile_digits Char.isDigit (natChars (mag / 10 ^ k)) '.'
        (padZeros k (natChars (mag % 10 ^ k)) ++ r0 :: rest)
        (fun c hc => natChars_digits hc) (show ('.').isDigit = false from rfl) with ⟨t1, t2⟩
      have hPdig : ∀ c ∈ padZeros k (natChars (mag % 10 ^ k)), c.isDigit = true :=
        fun c hc => padZeros_digits (fun ch hch => natChars_digits hch) hc
      rcases @takeWhile_digits Char.isDigit (padZeros k (natChars (mag % 10 ^ k))) r0 rest
        hPdig hr0 with ⟨t3, t4⟩
      have hmodlt : mag % 10 ^ k < 10 ^ k := Nat.mod_lt _ (pow_pos (by norm_num) k)
      have hPlen : (padZeros k (natChars (mag % 10 ^ k))).length = k :=
        padZeros_length (natChars_length_le _ _ _ hmodlt (by omega))
      have hPne : (padZeros k (natChars (mag % 10 ^ k))).isEmpty = false := by
        cases hP : padZeros k (natChars (mag % 10 ^ k)) with
        | nil =>
          rw [hP] at hPlen
          simp at hPlen
          omega
        | cons a as => rfl
      simp only [parseNum]
      rw [t1, t2, natChars_isEmpty]
      simp only [Bool.false_eq_true, if_false, List.head?_cons, List.tail_cons]
      rw [if_pos trivial, t3, t4, hPne]
      simp only [Bool.false_eq_true, if_false]
      have hPparse : parseNatChars (padZeros k (natChars (mag % 10 ^ k))) = mag % 10 ^ k := by
        unfold padZeros
        exact parseNatChars_padZeros _ _
      rw [hPparse, hPlen, parseNatChars_natChars]
      have hq : ((mag / 10 ^ k : ℕ) : ℚ) + ((mag % 10 ^ k : ℕ) : ℚ) / (10:ℚ) ^ k = q := by
        have hsplit : mag / 10 ^ k * 10 ^ k + mag % 10 ^ k = mag := by
          rw [mul_comm]
          exact Nat.div_add_mod _ _
        have hpow : ((10 : ℚ) ^ k) ≠ 0 := by positivity
        have hfrac : ((mag / 10 ^ k : ℕ) : ℚ) + ((mag % 10 ^ k : ℕ) : ℚ) / (10:ℚ) ^ k =
            (mag : ℚ) / (10:ℚ) ^ k := by
          field_simp
          exact_mod_cast hsplit
        rw [hfrac]
        have hqq : (mag : ℚ) / (10:ℚ) ^ k = ((q.num.natAbs : ℕ) : ℚ) / (q.den : ℚ) := by
          have h10 : ((10 : ℚ) ^ k) = ((q.den : ℚ)) * ((10 ^ k / q.den : ℕ) : ℚ) := by
            rw [show ((q.den : ℚ)) * ((10 ^ k / q.den : ℕ) : ℚ) =
              ((q.den * (10 ^ k / q.den) : ℕ) : ℚ) from by push_cast; ring, hcmul]
            norm_cast
          rw [hmagdef, h10]
          push_cast
          have hcq : ((10 ^ k / q.den : ℕ) : ℚ) ≠ 0 := Nat.cast_ne_zero.mpr hcne
          have hdq : ((q.den : ℕ) : ℚ) ≠ 0 := Nat.cast_ne_zero.mpr (by omega)
          field_simp
          ring
        rw [hqq, show ((q.num.natAbs : ℕ) : ℚ) = ((q.num.natAbs : ℤ) : ℚ) from
          (Int.cast_natCast _).symm, hnum]
        exact Rat.num_div_den q
      rw [hq]

end ThemeRs

namespace ThemeRs

theorem matchLit_lbrack (X : List Char) : matchLit "[".data ('[' :: X) = some X := rfl

theorem matchLit_sep (X : List Char) : matchLit ", ".data (',' :: ' ' :: X) = some X := rfl

theorem matchLit_rbrack (X : List Char) : matchLit "]".data (']' :: X) = some X := rfl

theorem matchLit_nl (X : List Char) : matchLit "\n".data ('\n' :: X) = some X := rfl

theorem parseKeyName_keyEq (k : UiColorName) (X : List Char) :
    parseKeyName (k.keyEq ++ X) = some (k, X) := by
  cases k
  · simp only [UiColorName.keyEq]
    unfold parseKeyName
    rw [matchLit_append]
  · simp only [UiColorName.keyEq]
    unfold parseKeyName
    rw [show matchLit "background = ".data ("border = ".data ++ X) = none from rfl,
      matchLit_append]
  · simp only [UiColorName.keyEq]
    unfold parseKeyName
    rw [show matchLit "background = ".data ("text = ".data ++ X) = none from rfl,
      show matchLit "border = ".data ("text = ".data ++ X) = none from rfl,
      matchLit_append]

theorem parseAppearance_key (ap : Appearance) (X : List Char) :
    parseAppearance (ap.key ++ X) = some (ap, X) := by
  cases ap
  · simp only [Appearance.key]
    unfold parseAppearance
    rw [matchLit_append]
  · simp only [Appearance.key]
    unfold parseAppearance
    rw [show matchLit "light".data ("dark".data ++ X) = none from rfl,
      matchLit_append]

theorem parseArray4_standard (h s l a : ℕ) (T : List Char) :
    parseArray4 (('[' :: natChars h ++ ", ".data ++ natChars s ++ ", ".data ++
      natChars l ++ ", ".data ++ natChars a ++ [']']) ++ T) =
    some ([.int (h : ℤ), .int (s : ℤ), .int (l : ℤ), .int (a : ℤ)], T) := by
  have hsep : (", ".data : List Char) = [',', ' '] := rfl
  simp only [hsep, List.cons_append, List.append_assoc, List.nil_append]
  simp only [parseArray4]
  rw [matchLit_lbrack]
  simp only [Option.some_bind]
  rw [parseNum_int h ',' _ (by decide) (by decide)]
  simp only [Option.some_bind]
  rw [matchLit_sep]
  simp only [Option.some_bind]
  rw [parseNum_int s ',' _ (by decide) (by decide)]
  simp only [Option.some_bind]
  rw [matchLit_sep]
  simp only [Option.some_bind]
  rw [parseNum_int l ',' _ (by decide) (by decide)]
  simp only [Option.some_bind]
  rw [matchLit_sep]
  simp only [Option.some_bind]
  rw [parseNum_int a ']' _ (by decide) (by decide)]
  simp only [Option.some_bind]
  rw [matchLit_rbrack]
  simp only [Option.some_bind]

theorem parseArray4_floats (qh qs ql qa : ℚ)
    (h0h : 0 ≤ qh) (h0s : 0 ≤ qs) (h0l : 0 ≤ ql) (h0a : 0 ≤ qa)
    (dh ds dl da : List Char)
    (hdh : ratDecChars qh = some dh) (hds : ratDecChars qs = some ds)
    (hdl : ratDecChars ql = some dl) (hda : ratDecChars qa = some da)
    (T : List Char) :
    parseArray4 (('[' :: dh ++ ", ".data ++ ds ++ ", ".data ++
      dl ++ ", ".data ++ da ++ [']']) ++ T) =
    some ([.float qh, .float qs, .float ql, .float qa], T) := by
  have hsep : (", ".data : List Char) = [',', ' '] := rfl
  simp only [hsep, List.cons_append, List.append_assoc, List.nil_append]
  simp only [parseArray4]
  rw [matchLit_lbrack]
  simp only [Option.some_bind]
  rw [parseNum_ratDec qh h0h dh hdh ',' _ (by decide) (by decide)]
  simp only [Option.some_bind]
  rw [matchLit_sep]
  simp only [Option.some_bind]
  rw [parseNum_ratDec qs h0s ds hds ',' _ (by decide) (by decide)]
  simp only [Option.some_bind]
  rw [matchLit_sep]
  simp only [Option.some_bind]
  rw [parseNum_ratDec ql h0l dl hdl ',' _ (by decide) (by decide)]
  simp only [Option.some_bind]
  rw [matchLit_sep]
  simp only [Option.some_bind]
  rw [parseNum_ratDec qa h0a da hda ']' _ (by decide) (by decide)]
  simp only [Option.some_bind]
  rw [matchLit_rbrack]
  simp only [Option.some_bind]

theorem u16ArrayDeser_ok (h s l a : ℕ)
    (hh : h ≤ 360) (hs : s ≤ 100) (hl : l ≤ 100) (ha : a ≤ 100) :
    u16ArrayDeser [.int (h : ℤ), .int (s : ℤ), .int (l : ℤ), .int (a : ℤ)] =
    .ok (h, s, l, a) := by
  have hb : (0:ℤ) ≤ (h:ℤ) ∧ (h:ℤ) < 65536 ∧ (0:ℤ) ≤ (s:ℤ) ∧ (s:ℤ) < 65536 ∧
      (0:ℤ) ≤ (l:ℤ) ∧ (l:ℤ) < 65536 ∧ (0:ℤ) ≤ (a:ℤ) ∧ (a:ℤ) < 65536 := by
    omega
  simp only [u16ArrayDeser]
  rw [dif_pos hb]
  simp only [Int.toNat_natCast]

theorem standardHsla_deserialize_ok (h s l a : ℕ)
    (hh : h ≤ 360) (hs : s ≤ 100) (hl : l ≤ 100) (ha : a ≤ 100) :
    StandardHsla.deserialize h s l a = .ok ⟨h, s, l, a⟩ := by
  simp only [StandardHsla.deserialize]
  rw [if_neg (by omega), if_neg (by omega), if_neg (by omega), if_neg (by omega)]

theorem standardHsla_deserializeNums_ok (h s l a : ℕ)
    (hh : h ≤ 360) (hs : s ≤ 100) (hl : l ≤ 100) (ha : a ≤ 100) :
    StandardHsla.deserializeNums
      [.int (h : ℤ), .int (s : ℤ), .int (l : ℤ), .int (a : ℤ)] =
    .ok ⟨h, s, l, a⟩ := by
  simp only [StandardHsla.deserializeNums]
  rw [u16ArrayDeser_ok h s l a hh hs hl ha]
  simp only [Except.bind]
  exact standardHsla_deserialize_ok h s l a hh hs hl ha

theorem zed_of_standard_ok (xs : List TomlNum) (v : StandardHsla)
    (hok : StandardHsla.deserializeNums xs = .ok v) :
    ZedHsla.deserializeNums xs = .ok (.standardHsla v) := by
  simp only [ZedHsla.deserializeNums, hok]

theorem zed_of_hsla_ok (xs : List TomlNum) (e : String) (c : Hsla)
    (herr : StandardHsla.deserializeNums xs = .error e)
    (hok : hslaDeserializeNums xs = .ok c) :
    ZedHsla.deserializeNums xs = .ok (.hsla c) := by
  simp only [ZedHsla.deserializeNums, herr, hok]

theorem standard_err_on_floats (qh qs ql qa : ℚ) :
    StandardHsla.deserializeNums [.float qh, .float qs, .float ql, .float qa] =
    .error "invalid type: expected an array of 4 u16 values" := rfl

theorem zed_deserializeNums_standard (h s l a : ℕ)
    (hh : h ≤ 360) (hs : s ≤ 100) (hl : l ≤ 100) (ha : a ≤ 100) :
    ZedHsla.deserializeNums
      [.int (h : ℤ), .int (s : ℤ), .int (l : ℤ), .int (a : ℤ)] =
    .ok (.standardHsla ⟨h, s, l, a⟩) :=
  zed_of_standard_ok _ _ (standardHsla_deserializeNums_ok h s l a hh hs hl ha)

theorem zed_deserializeNums_floats (qh qs ql qa : ℚ)
    (hbh : 0 ≤ qh ∧ qh ≤ 1) (hbs : 0 ≤ qs ∧ qs ≤ 1)
    (hbl : 0 ≤ ql ∧ ql ≤ 1) (hba : 0 ≤ qa ∧ qa ≤ 1) :
    ZedHsla.deserializeNums [.float qh, .float qs, .float ql, .float qa] =
    .ok (.hsla ⟨qh, qs, ql, qa⟩) := by
  have hok : hslaDeserializeNums [.float qh, .float qs, .float ql, .float qa] =
      .ok ⟨qh, qs, ql, qa⟩ := by
    simp only [hslaDeserializeNums, hsla, clampQ_eq_self hbh.1 hbh.2,
      clampQ_eq_self hbs.1 hbs.2, clampQ_eq_self hbl.1 hbl.2,
      clampQ_eq_self hba.1 hba.2]
  exact zed_of_hsla_ok _ _ _ (standard_err_on_floats qh qs ql qa) hok

theorem parseArray4_renderZed (z : ZedHsla) (hwf : wfZedB z = true)
    (v : List Char) (hv : renderZed z = some v) (T : List Char) :
    ∃ nums, parseArray4 (v ++ T) = some (nums, T) ∧
      ZedHsla.deserializeNums nums = .ok z := by
  cases z with
  | standardHsla w =>
    obtain ⟨h, s, l, a⟩ := w
    simp only [wfZedB, decide_eq_true_eq] at hwf
    obtain ⟨hh, hs, hl, ha⟩ := hwf
    simp only [renderZed, Option.some.injEq] at hv
    subst hv
    exact ⟨_, parseArray4_standard h s l a T,
      zed_deserializeNums_standard h s l a hh hs hl ha⟩
  | hsla c =>
    obtain ⟨qh, qs, ql, qa⟩ := c
    simp only [wfZedB, decide_eq_true_eq] at hwf
    obtain ⟨h0h, h1h, h0s, h1s, h0l, h1l, h0a, h1a⟩ := hwf
    simp only [renderZed] at hv
    rcases hdh : ratDecChars qh with _ | dh
    · rw [hdh] at hv
      simp at hv
    rw [hdh] at hv
    simp only [Option.some_bind] at hv
    rcases hds : ratDecChars qs with _ | ds
    · rw [hds] at hv
      simp at hv
    rw [hds] at hv
    simp only [Option.some_bind] at hv
    rcases hdl : ratDecChars ql with _ | dl
    · rw [hdl] at hv
      simp at hv
    rw [hdl] at hv
    simp only [Option.some_bind] at hv
    rcases hda : ratDecChars qa with _ | da
    · rw [hda] at hv
      simp at hv
    rw [hda] at hv
    simp only [Option.some_bind, Option.some.injEq] at hv
    subst hv
    exact ⟨_, parseArray4_floats qh qs ql qa h0h h0s h0l h0a dh ds dl da hdh hds hdl hda T,
      zed_deserializeNums_floats qh qs ql qa ⟨h0h, h1h⟩ ⟨h0s, h1s⟩ ⟨h0l, h1l⟩ ⟨h0a, h1a⟩⟩

theorem parseEntry_renderEntry (p : UiColorName × ZedHsla) (hwf : wfZedB p.2 = true)
    (l : List Char) (hl : renderEntry p = some l) (T : List Char) :
    parseEntry (l ++ T) = some (p, T) := by
  obtain ⟨k, z⟩ := p
  rcases hrz : renderZed z with _ | v
  · simp only [renderEntry, hrz] at hl
    exact Option.noConfusion hl
  · obtain ⟨nums, hpa, hdz⟩ := parseArray4_renderZed z hwf v hrz ('\n' :: T)
    simp only [renderEntry, hrz, Option.some.injEq] at hl
    subst hl
    have harr : (UiColorName.keyEq k ++ v ++ ['\n']) ++ T =
        UiColorName.keyEq k ++ (v ++ '\n' :: T) := by
      simp [List.append_assoc]
    rw [harr]
    simp only [parseEntry]
    rw [parseKeyName_keyEq]
    simp only [Option.some_bind]
    rw [hpa]
    simp only [Option.some_bind]
    rw [hdz]
    rfl

end ThemeRs

namespace ThemeRs

theorem UiColorName.idx_le_two (k : UiColorName) : k.idx ≤ 2 := by
  cases k <;> decide

theorem idx_lt_ne {a b : UiColorName} (h : a.idx < b.idx) : b ≠ a := by
  intro he
  subst he
  exact absurd h (lt_irrefl _)

theorem insertOverride_sorted_snoc (k : UiColorName) (v : ZedHsla)
    (l : List (UiColorName × ZedHsla)) (hl : ∀ p ∈ l, p.1.idx < k.idx) :
    insertOverride k v l = l ++ [(k, v)] := by
  induction l with
  | nil => rfl
  | cons p rest ih =>
    have hp := hl p (List.mem_cons_self p rest)
    simp only [insertOverride]
    rw [if_neg (by omega), if_neg (idx_lt_ne hp),
      ih (fun q hq => hl q (List.mem_cons_of_mem _ hq))]
    simp

theorem parseEntry_nil : parseEntry ([] : List Char) = none := rfl

theorem parseEntries_renderEntries (ov : List (UiColorName × ZedHsla))
    (hwk : wfKeysB ov = true) (hwz : ∀ p ∈ ov, wfZedB p.2 = true)
    (ls : List Char) (hls : renderEntries ov = some ls) :
    parseEntries ls = some ov := by
  rcases ov with _ | ⟨p1, _ | ⟨p2, _ | ⟨p3, _ | ⟨p4, rest⟩⟩⟩⟩
  · simp only [renderEntries, Option.some.injEq] at hls
    subst hls
    rfl
  · rcases hre1 : renderEntry p1 with _ | l1
    · simp only [renderEntries, hre1] at hls
      exact Option.noConfusion hls
    simp only [renderEntries, hre1, Option.some.injEq] at hls
    subst hls
    have hw1 : wfZedB p1.2 = true := hwz p1 (by simp)
    have he1 : parseEntry (l1 ++ []) = some (p1, []) :=
      parseEntry_renderEntry p1 hw1 l1 hre1 []
    simp only [parseEntries, he1, parseEntry_nil, List.isEmpty_nil, if_true]
    rw [insertOverride_sorted_snoc p1.1 p1.2 [] (by simp)]
    simp
  · rcases hre1 : renderEntry p1 with _ | l1
    · simp only [renderEntries, hre1] at hls
      exact Option.noConfusion hls
    rcases hre2 : renderEntry p2 with _ | l2
    · simp only [renderEntries, hre1, hre2] at hls
      exact Option.noConfusion hls
    simp only [renderEntries, hre1, hre2, Option.some.injEq] at hls
    subst hls
    simp only [wfKeysB, Bool.and_eq_true, decide_eq_true_eq] at hwk
    have h12 : p1.1.idx < p2.1.idx := hwk.1
    have hw1 : wfZedB p1.2 = true := hwz p1 (by simp)
    have hw2 : wfZedB p2.2 = true := hwz p2 (by simp)
    have he1 : parseEntry (l1 ++ (l2 ++ [])) = some (p1, l2 ++ []) :=
      parseEntry_renderEntry p1 hw1 l1 hre1 (l2 ++ [])
    have he2 : parseEntry (l2 ++ []) = some (p2, []) :=
      parseEntry_renderEntry p2 hw2 l2 hre2 []
    have e1 : insertOverride p1.1 p1.2 [] = [p1] := by
      rw [insertOverride_sorted_snoc p1.1 p1.2 [] (by simp)]
      simp
    have e2 : insertOverride p2.1 p2.2 [p1] = [p1, p2] := by
      rw [insertOverride_sorted_snoc p2.1 p2.2 [p1] ?_]
      · simp
      · intro q hq
        rw [List.mem_singleton] at hq
        subst hq
        exact h12
    simp only [parseEntries, he1, he2, parseEntry_nil, List.isEmpty_nil, if_true,
      e1, e2]
  · rcases hre1 : renderEntry p1 with _ | l1
    · simp only [renderEntries, hre1] at hls
      exact Option.noConfusion hls
    rcases hre2 : renderEntry p2 with _ | l2
    · simp only [renderEntries, hre1, hre2] at hls
      exact Option.noConfusion hls
    rcases hre3 : renderEntry p3 with _ | l3
    · simp only [renderEntries, hre1, hre2, hre3] at hls
      exact Option.noConfusion hls
    simp only [renderEntries, hre1, hre2, hre3, Option.some.injEq] at hls
    subst hls
    simp only [wfKeysB, Bool.and_eq_true, decide_eq_true_eq] at hwk
    have h12 : p1.1.idx < p2.1.idx := hwk.1
    have h23 : p2.1.idx < p3.1.idx := hwk.2.1
    have hw1 : wfZedB p1.2 = true := hwz p1 (by simp)
    have hw2 : wfZedB p2.2 = true := hwz p2 (by simp)
    have hw3 : wfZedB p3.2 = true := hwz p3 (by simp)
    have he1 : parseEntry (l1 ++ (l2 ++ (l3 ++ []))) = some (p1, l2 ++ (l3 ++ [])) :=
      parseEntry_renderEntry p1 hw1 l1 hre1 (l2 ++ (l3 ++ []))
    have he2 : parseEntry (l2 ++ (l3 ++ [])) = some (p2, l3 ++ []) :=
      parseEntry_renderEntry p2 hw2 l2 hre2 (l3 ++ [])
    have he3 : parseEntry (l3 ++ []) = some (p3, []) :=
      parseEntry_renderEntry p3 hw3 l3 hre3 []
    have e1 : insertOverride p1.1 p1.2 [] = [p1] := by
      rw [insertOverride_sorted_snoc p1.1 p1.2 [] (by simp)]
      simp
    have e2 : insertOverride p2.1 p2.2 [p1] = [p1, p2] := by
      rw [insertOverride_sorted_snoc p2.1 p2.2 [p1] ?_]
      · simp
      · intro q hq
        rw [List.mem_singleton] at hq
        subst hq
        exact h12
    have e3 : insertOverride p3.1 p3.2 [p1, p2] = [p1, p2, p3] := by
      rw [insertOverride_sorted_snoc p3.1 p3.2 [p1, p2] ?_]
      · simp
      · intro q hq
        rcases List.mem_pair.mp hq with hq1 | hq2
        · subst hq1
          exact lt_trans h12 h23
        · subst hq2
          exact h23
    simp only [parseEntries, he1, he2, he3, parseEntry_nil, List.isEmpty_nil,
      if_true, e1, e2, e3]
  · exfalso
    simp only [wfKeysB, Bool.and_eq_true, decide_eq_true_eq] at hwk
    have h12 : p1.1.idx < p2.1.idx := hwk.1
    have h23 : p2.1.idx < p3.1.idx := hwk.2.1
    have h34 : p3.1.idx < p4.1.idx := hwk.2.2.1
    have hb1 := UiColorName.idx_le_two p1.1
    have hb4 := UiColorName.idx_le_two p4.1
    omega

end ThemeRs

namespace ThemeRs

theorem parse_theme_mk (cs : List Char) :
    parse_theme (String.mk cs) = parseThemeChars cs := rfl

/-- C3: for every document `doc` produced by the system's own serializer
on a well-formed variant, parsing `doc` yields a variant whose
re-serialization is `doc` character for character (the `id` field carries
`#[serde(skip)]`, so the parsed variant holds its default id). -/
theorem serialize_parse_serialize_id (t : ThemeVariant) (hwf : WFTheme t)
    (doc : String) (hdoc : serialize_theme t = some doc) :
    ∃ u, parse_theme doc = some u ∧ serialize_theme u = some doc := by
  obtain ⟨hwk, hwz⟩ := hwf
  rcases hre : renderEntries t.overrides with _ | entries
  · simp only [serialize_theme, hre] at hdoc
    exact Option.noConfusion hdoc
  · simp only [serialize_theme, hre, Option.some.injEq] at hdoc
    subst hdoc
    refine ⟨⟨0, t.name, t.author, t.appearance, t.overrides⟩, ?_, ?_⟩
    · rw [parse_theme_mk]
      simp only [parseThemeChars]
      simp only [List.cons_append, List.append_assoc, List.nil_append, List.append_eq,
        matchLit, if_true, Option.some_bind]
      rw [parseStr_escStr]
      simp only [List.cons_append, List.append_assoc, List.nil_append, List.append_eq,
        matchLit, if_true, Option.some_bind]
      rw [parseStr_escStr]
      simp only [List.cons_append, List.append_assoc, List.nil_append, List.append_eq,
        matchLit, if_true, Option.some_bind]
      rw [parseAppearance_key]
      simp only [List.cons_append, List.append_assoc, List.nil_append, List.append_eq,
        matchLit, if_true, Option.some_bind]
      rw [parseEntries_renderEntries t.overrides hwk hwz entries hre]
      simp only [Option.some_bind]
    · simp only [serialize_theme, hre]

/-- Witness for C3: the concrete variant `demoTheme` is well-formed, its
serialization is `demoDoc`, and the theorem applied there gives a variant
that parses back from `demoDoc` and re-serializes to `demoDoc`. -/
theorem serialize_parse_serialize_id_witness :
    WFTheme demoTheme ∧ serialize_theme demoTheme = some demoDoc ∧
    ∃ u, parse_theme demoDoc = some u ∧ serialize_theme u = some demoDoc :=
  ⟨by decide, by rfl,
    serialize_parse_serialize_id demoTheme (by decide) demoDoc (by rfl)⟩

end ThemeRs
